import Mathlib

/-!
# Verification of the ArangoDB DocManager engine

Shallow embedding of `mongo_connector/doc_managers/arango3_doc_manager.py`:
the key encoder (`pre_process_id`), the dual-write upsert engine, the
fetch-patch-rewrite update engine, the chunked bulk loader, the remove
engine and the recovery queries (`search`, `get_last_doc`).

Python dictionaries are embedded as insertion-ordered association lists
over field names; an ArangoDB collection is a list of documents carrying
a `_key` field; the metadata collection `mongodb_data` is a list of
`MetaRecord`s.  Store primitives supplied by the external `python-arango`
client (per-key get/insert/replace/delete, bulk import with an
on-conflict policy, range scan, sort-limit query) are modelled from the
spec's contract for the external store collaborator where noted.
-/

set_option autoImplicit false

namespace Arango3

/-- A field value of a document: a string, a number, or a nested mapping
(as used by the `$set` / `$unset` payloads of an update spec). -/
inductive Value where
  | str (s : String)
  | nat (n : Nat)
  | vdoc (fields : List (String × Value))

/-- A document: a Python dict embedded as an insertion-ordered
association list from field names to values. -/
abbrev Doc := List (String × Value)

/-- Python `str()` of a document id value (string ids stay themselves,
numeric ids print in decimal). -/
def valueStr : Value → String
  | .str s => s
  | .nat n => toString n
  | .vdoc _ => "dict"

/-- `d.get(k)` on a Python dict: value of the first (only) binding of `k`. -/
def dictGet : Doc → String → Option Value
  | [], _ => none
  | p :: t, k => if p.1 = k then some p.2 else dictGet t k

/-- `d[k] = v` / `d.update({k: v})` on a Python dict: replace the value in
place if the key is bound, otherwise append the new binding. -/
def dictSet : Doc → String → Value → Doc
  | [], k, v => [(k, v)]
  | p :: t, k, v => if p.1 = k then (k, v) :: t else p :: dictSet t k v

/-- `d.pop(k)` (the removal part): drop the binding of `k`. -/
def dictErase (d : Doc) (k : String) : Doc :=
  d.filter (fun p => decide (p.1 ≠ k))

/-- `k in d` on a Python dict. -/
def hasField (d : Doc) (k : String) : Bool :=
  d.any (fun p => p.1 == k)

/-- Python `'.' in s` (single-character membership). -/
def strContainsDot (s : String) : Bool :=
  s.data.contains '.'

/-- `DocManager.pre_process_id`: convert the source id to its string form
and append one trailing `'.'` when no separator is present. -/
def pre_process_id (doc_id : String) : String :=
  if strContainsDot doc_id then doc_id else doc_id ++ "."

/-- One document of the metadata collection `mongodb_data`: the engine
only ever stores documents of the shape
`{"_key": key, "ns": namespace, "_ts": timestamp}` there. -/
structure MetaRecord where
  key : String
  ns : String
  ts : Nat
deriving DecidableEq, Repr

/-- `meta_collection.find({"_key": k, "ns": ns})`: filter by example. -/
def metaFind (m : List MetaRecord) (k ns : String) : List MetaRecord :=
  m.filter (fun r => r.key == k && r.ns == ns)

/-- `meta_collection.replace(r)`: replace the record whose `_key` matches
`r`'s (the store addresses documents by their `_key` alone). -/
def metaReplace (m : List MetaRecord) (r : MetaRecord) : List MetaRecord :=
  m.map (fun e => if e.key = r.key then r else e)

/-- Whether the metadata collection holds a record with `_key = k`. -/
def metaHasKey (m : List MetaRecord) (k : String) : Bool :=
  m.any (fun e => e.key == k)

/-- Modelled from the spec: the external store's per-key `delete`
primitive on the metadata collection — deleting a nonexistent key is not
an error (§4.6), so it is a plain filter. -/
def metaDelete (m : List MetaRecord) (k : String) : List MetaRecord :=
  m.filter (fun e => decide (e.key ≠ k))

/-- The `_key` of a stored document, when it carries one. -/
def docKey (d : Doc) : Option String :=
  match dictGet d "_key" with
  | some (.str s) => some s
  | _ => none

/-- `coll.find({"_key": k})` on a target collection. -/
def collFindByKey (c : List Doc) (k : String) : List Doc :=
  c.filter (fun d => decide (docKey d = some k))

/-- `coll.has(k)`: key-existence check on a target collection. -/
def collHas (c : List Doc) (k : String) : Bool :=
  c.any (fun d => decide (docKey d = some k))

/-- `coll.replace(d)`: replace the stored document whose `_key` matches
`d`'s. -/
def collReplace (c : List Doc) (dnew : Doc) : List Doc :=
  c.map (fun d => if docKey d = docKey dnew then dnew else d)

/-- Modelled from the spec: the external store's per-key `delete` on a
target collection — deleting a nonexistent key is not an error (§4.6). -/
def collDelete (c : List Doc) (k : String) : List Doc :=
  c.filter (fun d => decide (docKey d ≠ some k))

/-- The document write of the upsert engine: replace the stored document
when its key is already present (`coll.has`), insert it otherwise. -/
def collWrite (c : List Doc) (k : String) (d1 : Doc) : List Doc :=
  if collHas c k then collReplace c d1 else c ++ [d1]

/-- Modelled from the spec: one step of `import_bulk` with
`on_duplicate="replace"` — a key collision against a pre-existing
document behaves like the replace path, a fresh key is appended (§4.5). -/
def collImportOne (c : List Doc) (d : Doc) : List Doc :=
  match docKey d with
  | some k => if collHas c k then collReplace c d else c ++ [d]
  | none => c ++ [d]

/-- `coll.import_bulk(documents, on_duplicate="replace")` over a batch. -/
def collImportBulk (c : List Doc) (ds : List Doc) : List Doc :=
  ds.foldl collImportOne c

/-- One step of `import_bulk` with `on_duplicate="replace"` on the
metadata collection. -/
def metaImportOne (m : List MetaRecord) (r : MetaRecord) : List MetaRecord :=
  if metaHasKey m r.key then metaReplace m r else m ++ [r]

/-- `meta_coll.import_bulk(documents, on_duplicate="replace")`. -/
def metaImportBulk (m : List MetaRecord) (rs : List MetaRecord) : List MetaRecord :=
  rs.foldl metaImportOne m

/-- The whole target-side state: the target collections, addressed by
their namespace string `"database.collection"` (the engine splits the
string into a database and a collection handle; the pair determines the
string and vice versa, so we key collections by the full namespace), and
the shared metadata collection `mongodb_data`. -/
structure EngineState where
  colls : List (String × List Doc)
  meta : List MetaRecord

/-- Whether the target collection for a namespace exists. -/
def hasColl (s : EngineState) (ns : String) : Bool :=
  s.colls.any (fun p => p.1 == ns)

/-- Look up a namespace's target collection (first binding). -/
def lookupColl : List (String × List Doc) → String → Option (List Doc)
  | [], _ => none
  | p :: t, ns => if p.1 = ns then some p.2 else lookupColl t ns

/-- The contents of a namespace's target collection; a missing collection
reads as empty. -/
def getColl (s : EngineState) (ns : String) : List Doc :=
  (lookupColl s.colls ns).getD []

/-- Overwrite the (first) binding of a namespace's collection; a missing
namespace is left untouched. -/
def setCollList : List (String × List Doc) → String → List Doc → List (String × List Doc)
  | [], _, _ => []
  | p :: t, ns, c => if p.1 = ns then (ns, c) :: t else p :: setCollList t ns c

/-- Store new contents for a namespace's target collection. -/
def setColl (s : EngineState) (ns : String) (c : List Doc) : EngineState :=
  { s with colls := setCollList s.colls ns c }

/-- The lazy-create step of `upsert`/`bulk_upsert` (via
`handle_command {"create": coll}`): create the target collection if it is
absent, a no-op otherwise. -/
def ensureColl (s : EngineState) (ns : String) : EngineState :=
  if hasColl s ns then s else { s with colls := s.colls ++ [(ns, [])] }

/-- The errors the write paths can surface: `keyError` is Python's
`KeyError` from `doc.pop('_id')` on a mapping without an `'_id'` field;
`opFailed` is `errors.OperationFailed`, the wrapper around the store's
`DocumentInsertError` (e.g. a `_key` collision on insert). -/
inductive WriteError where
  | keyError
  | opFailed
deriving DecidableEq, Repr

/-- Outcome of a write path: the state after the call (including the
partial side effects performed before an error) and the error, if any. -/
structure WriteResult where
  state : EngineState
  err : Option WriteError

/-- Step 2 of the upsert engine applied to the caller's mapping:
`doc.pop('_id')` followed by `doc.update({'_key': k})`. -/
def upsertDocTransform (doc : Doc) (k : String) : Doc :=
  dictSet (dictErase doc "_id") "_key" (.str k)

/-- `DocManager.upsert(doc, namespace, timestamp)`: ensure the target
collection exists, encode the source id, strip it from the document,
write the metadata record (replace-if-found by `(key, ns)` example,
insert otherwise — the insert fails like the store's unique-`_key`
constraint when the key is already taken), then write the document
(replace if `coll.has(key)`, insert otherwise). -/
def upsert (s0 : EngineState) (doc : Doc) (ns : String) (t : Nat) : WriteResult :=
  let s := ensureColl s0 ns
  match dictGet doc "_id" with
  | none => ⟨s, some .keyError⟩
  | some idv =>
    let k := pre_process_id (valueStr idv)
    let d1 := upsertDocTransform doc k
    let r : MetaRecord := ⟨k, ns, t⟩
    if (metaFind s.meta k ns).isEmpty then
      if metaHasKey s.meta k then
        ⟨s, some .opFailed⟩
      else
        let s1 : EngineState := { s with meta := s.meta ++ [r] }
        ⟨setColl s1 ns (collWrite (getColl s1 ns) k d1), none⟩
    else
      let s1 : EngineState := { s with meta := metaReplace s.meta r }
      ⟨setColl s1 ns (collWrite (getColl s1 ns) k d1), none⟩

/-- The state `upsert` produces on its success path (shown equal to it in
`upsert_eq_upsertOk`): the metadata record for `(k, ns)` is appended when
absent and replaced in place when present, and the document is written
under `k` with the same replace-if-exists policy. -/
def upsertOk (s : EngineState) (doc : Doc) (ns : String) (t : Nat) (k : String) : EngineState :=
  let s1 := ensureColl s ns
  let m2 :=
    if (metaFind s1.meta k ns).isEmpty then s1.meta ++ [⟨k, ns, t⟩]
    else metaReplace s1.meta ⟨k, ns, t⟩
  let s2 : EngineState := { s1 with meta := m2 }
  setColl s2 ns (collWrite (getColl s2 ns) k (upsertDocTransform doc k))

/-- `DocManager.remove(document_id, namespace, timestamp)`: encode the
id, delete the metadata record by key, delete the document by key. -/
def remove (s : EngineState) (document_id : String) (ns : String) (_t : Nat) : EngineState :=
  let k := pre_process_id document_id
  let s1 : EngineState := { s with meta := metaDelete s.meta k }
  setColl s1 ns (collDelete (getColl s1 ns) k)

/-- `DocManager.search(start_ts, end_ts)`. Modelled from the spec: the
external `find_in_range("_ts", start_ts, end_ts)` primitive yields every
metadata record whose timestamp falls within the closed interval (§4.7). -/
def search (s : EngineState) (start_ts end_ts : Nat) : List MetaRecord :=
  s.meta.filter (fun r => start_ts ≤ r.ts && r.ts ≤ end_ts)

/-- `DocManager.get_last_doc()`. Modelled from the spec: the external
AQL query `SORT doc._ts DESC LIMIT 1` returns a record with the maximum
timestamp, ties broken deterministically by the store (here: the first
such record in insertion order), or an absent result when the metadata
collection is empty (§4.7).  `lastStep` is one step of that maximum
scan. -/
def lastStep (acc : Option MetaRecord) (r : MetaRecord) : Option MetaRecord :=
  match acc with
  | none => some r
  | some b => if b.ts < r.ts then some r else acc

/-- `DocManager.get_last_doc()`: the record of the metadata collection
with the maximum `_ts` (see `lastStep`), absent when it is empty. -/
def get_last_doc (s : EngineState) : Option MetaRecord :=
  s.meta.foldl lastStep none

/-- Modelled from the spec: `DocManagerBase.apply_update` (supplied by
the external `mongo_connector` package, not part of this repository) for
the two patch kinds the design requires — a `"$set"` payload adds or
overwrites the named fields, a `"$unset"` payload removes them (§4.4). -/
def base_apply_update (doc update_spec : Doc) : Doc :=
  let afterSet :=
    match dictGet update_spec "$set" with
    | some (.vdoc fs) => fs.foldl (fun acc p => dictSet acc p.1 p.2) doc
    | _ => doc
  match dictGet update_spec "$unset" with
  | some (.vdoc fs) => fs.foldl (fun acc p => dictErase acc p.1) afterSet
  | _ => afterSet

/-- `DocManager.apply_update`: a spec containing neither `"$set"` nor
`"$unset"` is returned literally as the full replacement document;
otherwise the base document manager's patch application runs. -/
def apply_update (doc update_spec : Doc) : Doc :=
  if hasField update_spec "$set" = false ∧ hasField update_spec "$unset" = false then
    update_spec
  else
    base_apply_update doc update_spec

/-- Outcome of `DocManager.update`: the state after the call, whether the
missing-document condition was logged (`LOG.error`), and the error the
inner upsert raised, if any. -/
structure UpdateResult where
  state : EngineState
  loggedMissing : Bool
  err : Option WriteError

/-- `DocManager.update(document_id, update_spec, namespace, timestamp)`:
encode the id; if a metadata record matching `(key, ns)` exists, replace
it with a fresh one stamped with the new timestamp; then fetch the
document by key — if absent, log the missing-document condition and
return, otherwise apply the patch, put the encoded key back into the
`'_id'` field and write the result back through `upsert`. -/
def update (s : EngineState) (document_id : String) (update_spec : Doc)
    (ns : String) (t : Nat) : UpdateResult :=
  let k := pre_process_id document_id
  let r : MetaRecord := ⟨k, ns, t⟩
  let s1 : EngineState :=
    if (metaFind s.meta k ns).isEmpty then s else { s with meta := metaReplace s.meta r }
  match collFindByKey (getColl s1 ns) k with
  | [] => ⟨s1, true, none⟩
  | d :: _ =>
    let updated := dictSet (apply_update d update_spec) "_id" (.str k)
    let w := upsert s1 updated ns t
    ⟨w.state, false, w.err⟩

/-- The chunking of `bulk_upsert.iterate_chunks`: split the pulled
sequence into consecutive chunks of `chunk_size` items, the last one
possibly shorter; an empty final chunk is not produced.  (The source
loops forever when the chunk size is `0`; the claims only concern a
positive chunk size, and this model then produces no chunks.) -/
def chunksOf {α : Type} (k : Nat) (l : List α) : List (List α) :=
  match l with
  | [] => []
  | a :: t =>
    if hk : k = 0 then []
    else (a :: t).take k :: chunksOf k ((a :: t).drop k)
termination_by l.length
decreasing_by
  have h2 : 0 < k := Nat.pos_of_ne_zero hk
  simp only [List.length_drop, List.length_cons]
  omega

/-- The per-document work inside `iterate_chunks`: read the `'_id'`
field (its absence makes `doc.pop('_id')` raise `KeyError`), encode it,
strip it, store it into `'_key'`, and build the parallel metadata
entry. -/
def bulkTransform (ns : String) (t : Nat) (d : Doc) : Option (Doc × MetaRecord) :=
  match dictGet d "_id" with
  | none => none
  | some idv =>
    let k := pre_process_id (valueStr idv)
    some (upsertDocTransform d k, ⟨k, ns, t⟩)

/-- Submission of one chunk: `import_bulk` of the document batch into
the target collection, then `import_bulk` of the metadata batch. -/
def bulkCommit (ns : String) (s : EngineState) (prs : List (Doc × MetaRecord)) : EngineState :=
  let s1 := setColl s ns (collImportBulk (getColl s ns) (prs.map (·.1)))
  { s1 with meta := metaImportBulk s1.meta (prs.map (·.2)) }

/-- Drive the chunk loop: a `KeyError` inside a chunk aborts the call,
discarding the partially-built chunk but keeping the chunks already
committed. -/
def bulkGo (ns : String) (t : Nat) :
    List (List Doc) → EngineState → EngineState × Option WriteError
  | [], s => (s, none)
  | ch :: rest, s =>
    match ch.mapM (bulkTransform ns t) with
    | none => (s, some .keyError)
    | some prs => bulkGo ns t rest (bulkCommit ns s prs)

/-- `DocManager.bulk_upsert(docs, namespace, timestamp)` with the
configured `chunk_size`: ensure the collection exists once, then drain
the sequence chunk by chunk through the two bulk imports. -/
def bulk_upsert (s0 : EngineState) (docs : List Doc) (ns : String) (t : Nat)
    (chunk_size : Nat) : EngineState × Option WriteError :=
  bulkGo ns t (chunksOf chunk_size docs) (ensureColl s0 ns)

/-- The `_key` of a stored document, defaulted (well-formed stores only
hold documents with a string `_key`, see `collKeysWF`). -/
def keyD (d : Doc) : String :=
  (docKey d).getD ""

/-- How many metadata records carry a given `(TargetKey, namespace)`
pair. -/
def metaCount (m : List MetaRecord) (k ns : String) : Nat :=
  (metaFind m k ns).length

/-- Well-formedness of a target collection as ArangoDB maintains it:
every stored document has a string `_key`, and keys are pairwise
distinct. -/
def collKeysWF (c : List Doc) : Prop :=
  (∀ d ∈ c, (docKey d).isSome = true) ∧ (c.map docKey).Nodup

/-- Well-formedness of the whole target store: namespaces are bound at
most once, every collection is key-unique, and the metadata collection
is `_key`-unique (its documents are keyed by the encoded id alone). -/
def stateWF (s : EngineState) : Prop :=
  (s.colls.map Prod.fst).Nodup ∧ (∀ p ∈ s.colls, collKeysWF p.2) ∧
    (s.meta.map MetaRecord.key).Nodup

/-- §3's Metadata Index invariant: for every document currently present
in a target collection, exactly one metadata record with the same
TargetKey and namespace exists. -/
def metaInv (s : EngineState) : Prop :=
  ∀ p ∈ s.colls, ∀ d ∈ p.2, metaCount s.meta (keyD d) p.1 = 1

/-- The §3 invariant together with store well-formedness. -/
def MetaIndexInv (s : EngineState) : Prop :=
  stateWF s ∧ metaInv s

instance (c : List Doc) : Decidable (collKeysWF c) := by
  unfold collKeysWF; infer_instance

instance (s : EngineState) : Decidable (stateWF s) := by
  unfold stateWF; infer_instance

instance (s : EngineState) : Decidable (metaInv s) := by
  unfold metaInv; infer_instance

instance (s : EngineState) : Decidable (MetaIndexInv s) := by
  unfold MetaIndexInv; infer_instance

/-- The total form of `bulkTransform`'s key computation (`str(None)` is
the string `"None"`, matching `doc.get('_id')` on a mapping without an
id; such a mapping makes the loader raise before using the key). -/
def bulkKey (d : Doc) : String :=
  pre_process_id (valueStr ((dictGet d "_id").getD (.str "None")))

/-- The total form of `bulkTransform`, used to state what the loader
does to documents that do carry an `'_id'`. -/
def bulkT (ns : String) (t : Nat) (d : Doc) : Doc × MetaRecord :=
  (upsertDocTransform d (bulkKey d), ⟨bulkKey d, ns, t⟩)

/-- A two-namespace scenario used to study the invariant: a document
with source id `"1"` replicated into `db.a` at timestamp 1, then one
with source id `"2"` into `db.b` at timestamp 2. -/
def exTwoNs : EngineState :=
  (upsert (upsert ⟨[], []⟩ [("name", .str "John"), ("_id", .str "1")] "db.a" 1).state
    [("name", .str "Sam"), ("_id", .str "2")] "db.b" 2).state

/-- The scenario state after `remove("1", "db.b", 3)`: the id exists
only in `db.a`, but the remove is addressed to `db.b`. -/
def exTwoNsRemoved : EngineState :=
  remove exTwoNs "1" "db.b" 3

/-- The spec's update example: `{"name": "John"}` upserted under id
`"1"` at timestamp 3 into `test_db.test_collection`, from the empty
store. -/
def exUpdBase : EngineState :=
  (upsert ⟨[], []⟩ [("name", .str "John"), ("_id", .str "1")] "test_db.test_collection" 3).state

/-- The example after applying the patch `{"$set": {"city": "New York"}}`. -/
def exUpdSet : EngineState :=
  (update exUpdBase "1" [("$set", .vdoc [("city", .str "New York")])]
    "test_db.test_collection" 4).state

/-- The example after subsequently applying `{"$unset": {"city": 1}}`. -/
def exUpdUnset : EngineState :=
  (update exUpdSet "1" [("$unset", .vdoc [("city", .nat 1)])]
    "test_db.test_collection" 6).state

theorem dictGet_set_self (d : Doc) (k : String) (v : Value) :
    dictGet (dictSet d k v) k = some v := by
  induction d with
  | nil => simp [dictGet, dictSet]
  | cons p t ih =>
    by_cases h : p.1 = k
    · simp [dictSet, h, dictGet]
    · simp [dictSet, h, dictGet, ih]

theorem dictGet_set_ne (d : Doc) (k k' : String) (v : Value) (h : k ≠ k') :
    dictGet (dictSet d k' v) k = dictGet d k := by
  have hne : ¬ (k' = k) := fun hh => h hh.symm
  induction d with
  | nil => simp [dictGet, dictSet, hne]
  | cons p t ih =>
    by_cases hp : p.1 = k'
    · simp [dictSet, hp, dictGet, hne]
    · simp only [dictSet, if_neg hp]
      by_cases hk : p.1 = k
      · simp [dictGet, hk]
      · simp [dictGet, hk, ih]

theorem dictGet_erase_self (d : Doc) (k : String) :
    dictGet (dictErase d k) k = none := by
  induction d with
  | nil => simp [dictErase, dictGet]
  | cons p t ih =>
    by_cases h : p.1 = k
    · simpa [dictErase, h] using ih
    · simpa [dictErase, h, dictGet] using ih

theorem dictErase_set_self (d : Doc) (k : String) (v : Value) :
    dictErase (dictSet d k v) k = dictErase d k := by
  induction d with
  | nil => simp [dictErase, dictSet]
  | cons p t ih =>
    by_cases h : p.1 = k
    · simp [dictSet, h, dictErase]
    · simp only [dictSet, if_neg h]
      simpa [dictErase, h] using ih

theorem strContainsDot_append_dot (s : String) :
    strContainsDot (s ++ ".") = true := by
  simp [strContainsDot, String.data_append]

theorem pre_process_id_contains_dot (s : String) :
    strContainsDot (pre_process_id s) = true := by
  unfold pre_process_id
  by_cases h : strContainsDot s
  · simp [h]
  · simp [h, strContainsDot_append_dot]

theorem pre_process_id_idem (s : String) :
    pre_process_id (pre_process_id s) = pre_process_id s := by
  conv_lhs => rw [pre_process_id]
  simp [pre_process_id_contains_dot s]

theorem mem_metaFind {m : List MetaRecord} {k ns : String} {r : MetaRecord} :
    r ∈ metaFind m k ns ↔ r ∈ m ∧ r.key = k ∧ r.ns = ns := by
  simp [metaFind, List.mem_filter]

theorem metaFind_eq_nil_iff {m : List MetaRecord} {k ns : String} :
    metaFind m k ns = [] ↔ ∀ r ∈ m, r.key = k → r.ns ≠ ns := by
  constructor
  · intro h r hr hk hns
    have : r ∈ metaFind m k ns := mem_metaFind.mpr ⟨hr, hk, hns⟩
    simp [h] at this
  · intro h
    cases hm : metaFind m k ns with
    | nil => rfl
    | cons a t =>
      have ha : a ∈ metaFind m k ns := by simp [hm]
      rcases mem_metaFind.mp ha with ⟨h1, h2, h3⟩
      exact absurd h3 (h a h1 h2)

theorem metaFind_append {m1 m2 : List MetaRecord} {k ns : String} :
    metaFind (m1 ++ m2) k ns = metaFind m1 k ns ++ metaFind m2 k ns := by
  simp [metaFind, List.filter_append]

theorem metaHasKey_iff {m : List MetaRecord} {k : String} :
    metaHasKey m k = true ↔ ∃ e ∈ m, e.key = k := by
  simp [metaHasKey, List.any_eq_true]

theorem metaHasKey_eq_false_iff {m : List MetaRecord} {k : String} :
    metaHasKey m k = false ↔ ∀ e ∈ m, e.key ≠ k := by
  rw [← Bool.not_eq_true, metaHasKey_iff]
  push_neg
  rfl

theorem metaReplace_keys (m : List MetaRecord) (r : MetaRecord) :
    (metaReplace m r).map MetaRecord.key = m.map MetaRecord.key := by
  unfold metaReplace
  rw [List.map_map]
  refine List.map_congr_left (fun e _ => ?_)
  by_cases h : e.key = r.key <;> simp [h]

theorem mem_metaReplace {m : List MetaRecord} {r e : MetaRecord}
    (h : e ∈ metaReplace m r) : e = r ∨ (e ∈ m ∧ e.key ≠ r.key) := by
  unfold metaReplace at h
  rcases List.mem_map.mp h with ⟨e0, he0, heq⟩
  by_cases hk : e0.key = r.key
  · simp [hk] at heq
    exact Or.inl heq.symm
  · simp [hk] at heq
    exact Or.inr ⟨heq ▸ he0, heq ▸ hk⟩

theorem metaReplace_of_not_haskey {m : List MetaRecord} {r : MetaRecord}
    (h : ∀ e ∈ m, e.key ≠ r.key) : metaReplace m r = m := by
  unfold metaReplace
  rw [show m.map (fun e => if e.key = r.key then r else e) =
      m.map (fun e => e) from List.map_congr_left (fun e he => by simp [h e he]),
    List.map_id']

theorem filter_one_of_nodup_map {α β : Type} {f : α → β} {l : List α}
    (hN : (l.map f).Nodup) {a : α} (ha : a ∈ l) (p : α → Bool) (hpa : p a = true)
    (hp : ∀ x ∈ l, p x = true → f x = f a) : l.filter p = [a] := by
  induction l with
  | nil => simp at ha
  | cons x t ih =>
    simp only [List.map_cons, List.nodup_cons] at hN
    by_cases hpx : p x = true
    · have hxa : x = a := by
        rcases List.mem_cons.mp ha with h | h
        · exact h.symm
        · refine absurd ?_ hN.1
          rw [hp x (List.mem_cons_self x t) hpx]
          exact List.mem_map.mpr ⟨a, h, rfl⟩
      have ht : t.filter p = [] := by
        refine List.filter_eq_nil_iff.mpr (fun y hy hpy => ?_)
        refine hN.1 ?_
        exact List.mem_map.mpr ⟨y, hy, by rw [hp y (List.mem_cons_of_mem x hy) hpy, hxa]⟩
      simp [List.filter_cons, hpx, ht, hxa, hpa]
    · have ha' : a ∈ t := by
        rcases List.mem_cons.mp ha with h | h
        · exact absurd (h ▸ hpa) hpx
        · exact h
      rw [List.filter_cons_of_neg (by simpa using hpx)]
      exact ih hN.2 ha' (fun y hy hpy => hp y (List.mem_cons_of_mem x hy) hpy)

theorem metaReplace_eq_self {m : List MetaRecord} {r : MetaRecord}
    (hN : (m.map MetaRecord.key).Nodup) (hr : r ∈ m) : metaReplace m r = m := by
  unfold metaReplace
  rw [show m.map (fun e => if e.key = r.key then r else e) =
      m.map (fun e => e) from
      List.map_congr_left (fun e he => by
        by_cases h : e.key = r.key
        · simp only [if_pos h]
          exact List.inj_on_of_nodup_map hN hr he h.symm
        · simp [h]),
    List.map_id']

theorem metaFind_not_haskey {m : List MetaRecord} {k ns : String}
    (h : ∀ e ∈ m, e.key ≠ k) : metaFind m k ns = [] :=
  metaFind_eq_nil_iff.mpr (fun r hr hk => absurd hk (h r hr))

theorem metaFind_metaReplace_self {m : List MetaRecord} {k ns : String} {t : Nat}
    (hN : (m.map MetaRecord.key).Nodup) (hex : ∃ e ∈ m, e.key = k) :
    metaFind (metaReplace m ⟨k, ns, t⟩) k ns = [⟨k, ns, t⟩] := by
  rcases hex with ⟨e0, he0, hk0⟩
  unfold metaFind metaReplace
  rw [List.filter_map]
  have h1 : List.filter
      ((fun r => r.key == k && r.ns == ns) ∘ fun e => if e.key = (⟨k, ns, t⟩ : MetaRecord).key
        then (⟨k, ns, t⟩ : MetaRecord) else e) m
      = List.filter (fun e => e.key == k) m := by
    refine List.filter_congr (fun e _ => ?_)
    by_cases hk : e.key = k <;> simp [Function.comp, hk]
  rw [h1,
    filter_one_of_nodup_map hN he0 _ (by simp [hk0])
      (fun x _ hpx => by
        simp only [beq_iff_eq] at hpx
        rw [hpx, hk0]),
    List.map_singleton]
  simp [hk0]

theorem metaFind_metaReplace_ne {m : List MetaRecord} {r : MetaRecord} {k' ns' : String}
    (h : k' ≠ r.key) : metaFind (metaReplace m r) k' ns' = metaFind m k' ns' := by
  unfold metaFind metaReplace
  rw [List.filter_map]
  have h1 : List.filter
      ((fun x => x.key == k' && x.ns == ns') ∘ fun e => if e.key = r.key then r else e) m
      = List.filter (fun x => x.key == k' && x.ns == ns') m := by
    refine List.filter_congr (fun e _ => ?_)
    by_cases hk : e.key = r.key
    · have hr' : (r.key == k') = false := by
        simp only [beq_eq_false_iff_ne]
        exact fun hh => h hh.symm
      have he' : (e.key == k') = false := by
        simp only [beq_eq_false_iff_ne]
        exact fun hh => h (hh.symm.trans hk)
      simp [Function.comp, hk, hr', he']
    · simp [Function.comp, hk]
  rw [h1]
  refine (List.map_congr_left (fun e he => ?_)).trans (List.map_id' _)
  have hmem := List.mem_filter.mp he
  have : e.key = k' := by
    have := hmem.2
    simp only [Bool.and_eq_true, beq_iff_eq] at this
    exact this.1
  rw [if_neg (fun hh => h (this ▸ hh))]

theorem metaFind_metaDelete_self {m : List MetaRecord} {k ns : String} :
    metaFind (metaDelete m k) k ns = [] := by
  refine metaFind_eq_nil_iff.mpr (fun r hr hk => ?_)
  have := List.mem_filter.mp hr
  simp at this
  exact absurd hk this.2

theorem metaFind_metaDelete_ne {m : List MetaRecord} {k k' ns' : String}
    (h : k' ≠ k) : metaFind (metaDelete m k) k' ns' = metaFind m k' ns' := by
  unfold metaFind metaDelete
  rw [List.filter_filter]
  refine List.filter_congr (fun e _ => ?_)
  by_cases hk : e.key = k'
  · have : (decide (e.key ≠ k)) = true := by
      simp only [decide_eq_true_eq]
      exact fun hh => h (hk.symm.trans hh)
    rw [this, Bool.and_true]
  · simp [hk]

theorem metaHasKey_metaDelete {m : List MetaRecord} {k : String} :
    metaHasKey (metaDelete m k) k = false := by
  refine metaHasKey_eq_false_iff.mpr (fun e he => ?_)
  have := List.mem_filter.mp he
  simpa using this.2

theorem metaDelete_keys_sublist (m : List MetaRecord) (k : String) :
    List.Sublist ((metaDelete m k).map MetaRecord.key) (m.map MetaRecord.key) :=
  (List.filter_sublist m).map _

theorem metaDelete_idem (m : List MetaRecord) (k : String) :
    metaDelete (metaDelete m k) k = metaDelete m k :=
  List.filter_eq_self.mpr (fun e he => (List.mem_filter.mp he).2)

theorem mem_collFindByKey {c : List Doc} {k : String} {d : Doc} :
    d ∈ collFindByKey c k ↔ d ∈ c ∧ docKey d = some k := by
  simp [collFindByKey, List.mem_filter]

theorem collFindByKey_append {c1 c2 : List Doc} {k : String} :
    collFindByKey (c1 ++ c2) k = collFindByKey c1 k ++ collFindByKey c2 k := by
  simp [collFindByKey, List.filter_append]

theorem collHas_iff {c : List Doc} {k : String} :
    collHas c k = true ↔ ∃ d ∈ c, docKey d = some k := by
  simp [collHas, List.any_eq_true]

theorem collHas_eq_false_iff {c : List Doc} {k : String} :
    collHas c k = false ↔ ∀ d ∈ c, docKey d ≠ some k := by
  rw [← Bool.not_eq_true, collHas_iff]
  push_neg
  rfl

theorem collFindByKey_eq_nil_iff {c : List Doc} {k : String} :
    collFindByKey c k = [] ↔ ∀ d ∈ c, docKey d ≠ some k := by
  simp [collFindByKey, List.filter_eq_nil_iff]

theorem collReplace_keys (c : List Doc) (dnew : Doc) :
    (collReplace c dnew).map docKey = c.map docKey := by
  unfold collReplace
  rw [List.map_map]
  refine List.map_congr_left (fun d _ => ?_)
  by_cases h : docKey d = docKey dnew <;> simp [Function.comp, h]

theorem mem_collReplace {c : List Doc} {dnew d : Doc}
    (h : d ∈ collReplace c dnew) :
    d = dnew ∨ (d ∈ c ∧ docKey d ≠ docKey dnew) := by
  unfold collReplace at h
  rcases List.mem_map.mp h with ⟨d0, hd0, heq⟩
  by_cases hk : docKey d0 = docKey dnew
  · simp [hk] at heq
    exact Or.inl heq.symm
  · simp [hk] at heq
    exact Or.inr ⟨heq ▸ hd0, heq ▸ hk⟩

theorem collReplace_eq_self {c : List Doc} {dnew : Doc}
    (hN : (c.map docKey).Nodup) (hm : dnew ∈ c) : collReplace c dnew = c := by
  unfold collReplace
  rw [show c.map (fun d => if docKey d = docKey dnew then dnew else d) =
      c.map (fun d => d) from
      List.map_congr_left (fun d hd => by
        by_cases h : docKey d = docKey dnew
        · simp only [if_pos h]
          exact List.inj_on_of_nodup_map hN hm hd h.symm
        · simp [h]),
    List.map_id']

theorem collFindByKey_collReplace_self {c : List Doc} {dnew : Doc} {k : String}
    (hN : (c.map docKey).Nodup) (hkey : docKey dnew = some k)
    (hex : ∃ d ∈ c, docKey d = some k) :
    collFindByKey (collReplace c dnew) k = [dnew] := by
  rcases hex with ⟨d0, hd0, hk0⟩
  unfold collFindByKey collReplace
  rw [List.filter_map]
  have h1 : List.filter
      ((fun d => decide (docKey d = some k)) ∘ fun d => if docKey d = docKey dnew then dnew else d) c
      = List.filter (fun d => decide (docKey d = some k)) c := by
    refine List.filter_congr (fun d _ => ?_)
    by_cases hk : docKey d = docKey dnew
    · simp [Function.comp, hk, hkey]
    · have : docKey d ≠ some k := fun hh => hk (hh.trans hkey.symm)
      simp [Function.comp, hk, this]
  rw [h1,
    filter_one_of_nodup_map hN hd0 _ (by simp [hk0])
      (fun x _ hpx => by
        simp only [decide_eq_true_eq] at hpx
        rw [hpx, hk0]),
    List.map_singleton]
  simp [hk0.trans hkey.symm]

theorem collFindByKey_collReplace_ne {c : List Doc} {dnew : Doc} {k' : String}
    (h : docKey dnew ≠ some k') :
    collFindByKey (collReplace c dnew) k' = collFindByKey c k' := by
  unfold collFindByKey collReplace
  rw [List.filter_map]
  have h1 : List.filter
      ((fun d => decide (docKey d = some k')) ∘ fun d => if docKey d = docKey dnew then dnew else d) c
      = List.filter (fun d => decide (docKey d = some k')) c := by
    refine List.filter_congr (fun d _ => ?_)
    by_cases hk : docKey d = docKey dnew
    · have : docKey d ≠ some k' := fun hh => h (hk.symm.trans hh)
      simp [Function.comp, hk, h, this]
    · simp [Function.comp, hk]
  rw [h1]
  refine (List.map_congr_left (fun d hd => ?_)).trans (List.map_id' _)
  have hmem := List.mem_filter.mp hd
  have hk' : docKey d = some k' := by simpa using hmem.2
  exact if_neg (fun hh : docKey d = docKey dnew => h (hh.symm.trans hk'))

theorem collFindByKey_collDelete_self {c : List Doc} {k : String} :
    collFindByKey (collDelete c k) k = [] := by
  refine collFindByKey_eq_nil_iff.mpr (fun d hd => ?_)
  have := List.mem_filter.mp hd
  simpa using this.2

theorem collHas_collDelete {c : List Doc} {k : String} :
    collHas (collDelete c k) k = false := by
  refine collHas_eq_false_iff.mpr (fun d hd => ?_)
  have := List.mem_filter.mp hd
  simpa using this.2

theorem collDelete_keys_sublist (c : List Doc) (k : String) :
    List.Sublist ((collDelete c k).map docKey) (c.map docKey) :=
  (List.filter_sublist c).map _

theorem collDelete_idem (c : List Doc) (k : String) :
    collDelete (collDelete c k) k = collDelete c k :=
  List.filter_eq_self.mpr (fun d hd => (List.mem_filter.mp hd).2)

theorem mem_collDelete {c : List Doc} {k : String} {d : Doc} :
    d ∈ collDelete c k ↔ d ∈ c ∧ docKey d ≠ some k := by
  simp [collDelete, List.mem_filter]

theorem lookupColl_isSome_iff {cs : List (String × List Doc)} {ns : String} :
    (lookupColl cs ns).isSome = true ↔ ∃ p ∈ cs, p.1 = ns := by
  induction cs with
  | nil => simp [lookupColl]
  | cons q t ih =>
    by_cases h : q.1 = ns
    · simp [lookupColl, h]
    · simp only [lookupColl, if_neg h, ih, List.mem_cons]
      constructor
      · rintro ⟨p, hp, hp1⟩
        exact ⟨p, Or.inr hp, hp1⟩
      · rintro ⟨p, hp | hp, hp1⟩
        · exact absurd (hp ▸ hp1) h
        · exact ⟨p, hp, hp1⟩

theorem hasColl_iff {s : EngineState} {ns : String} :
    hasColl s ns = true ↔ (lookupColl s.colls ns).isSome = true := by
  rw [lookupColl_isSome_iff]
  simp [hasColl, List.any_eq_true]

theorem lookupColl_mem {cs : List (String × List Doc)} {ns : String} {c : List Doc}
    (h : lookupColl cs ns = some c) : (ns, c) ∈ cs := by
  induction cs with
  | nil => simp [lookupColl] at h
  | cons q t ih =>
    by_cases hq : q.1 = ns
    · simp only [lookupColl, if_pos hq] at h
      cases h
      have hq2 : (ns, q.2) = q := by
        cases q with
        | mk a b =>
          simp only at hq
          simp [hq]
      rw [hq2]
      exact List.mem_cons_self q t
    · simp only [lookupColl, if_neg hq] at h
      exact List.mem_cons_of_mem _ (ih h)

theorem lookupColl_setCollList_self {cs : List (String × List Doc)} {ns : String}
    {c0 c : List Doc} (h : lookupColl cs ns = some c0) :
    lookupColl (setCollList cs ns c) ns = some c := by
  induction cs with
  | nil => simp [lookupColl] at h
  | cons q t ih =>
    by_cases hq : q.1 = ns
    · simp [setCollList, hq, lookupColl]
    · simp only [lookupColl, if_neg hq] at h
      simp [setCollList, hq, lookupColl, ih h]

theorem setCollList_of_lookup_none {cs : List (String × List Doc)} {ns : String}
    {c : List Doc} (h : lookupColl cs ns = none) : setCollList cs ns c = cs := by
  induction cs with
  | nil => rfl
  | cons q t ih =>
    by_cases hq : q.1 = ns
    · simp [lookupColl, hq] at h
    · simp only [lookupColl, if_neg hq] at h
      simp [setCollList, hq, ih h]

theorem lookupColl_setCollList_ne {cs : List (String × List Doc)} {ns ns' : String}
    {c : List Doc} (h : ns' ≠ ns) :
    lookupColl (setCollList cs ns c) ns' = lookupColl cs ns' := by
  induction cs with
  | nil => rfl
  | cons q t ih =>
    by_cases hq : q.1 = ns
    · have h1 : ¬ (ns = ns') := fun hh => h hh.symm
      have h2 : ¬ (q.1 = ns') := fun hh => h (hh.symm.trans hq)
      simp [setCollList, hq, lookupColl, h1, h2]
    · simp [setCollList, hq, lookupColl, ih]

theorem setCollList_keys (cs : List (String × List Doc)) (ns : String) (c : List Doc) :
    (setCollList cs ns c).map Prod.fst = cs.map Prod.fst := by
  induction cs with
  | nil => rfl
  | cons q t ih =>
    by_cases hq : q.1 = ns
    · simp [setCollList, hq]
    · simp [setCollList, hq, ih]

theorem mem_setCollList {cs : List (String × List Doc)} {ns : String} {c : List Doc}
    {p : String × List Doc} (hN : (cs.map Prod.fst).Nodup)
    (h : p ∈ setCollList cs ns c) : p = (ns, c) ∨ (p ∈ cs ∧ p.1 ≠ ns) := by
  induction cs with
  | nil => simp [setCollList] at h
  | cons q t ih =>
    simp only [List.map_cons, List.nodup_cons] at hN
    by_cases hq : q.1 = ns
    · simp only [setCollList, if_pos hq] at h
      rcases List.mem_cons.mp h with h1 | h1
      · exact Or.inl h1
      · refine Or.inr ⟨List.mem_cons_of_mem _ h1, fun hp => ?_⟩
        exact hN.1 (hq ▸ hp ▸ List.mem_map.mpr ⟨p, h1, rfl⟩)
    · simp only [setCollList, if_neg hq] at h
      rcases List.mem_cons.mp h with h1 | h1
      · exact Or.inr ⟨h1 ▸ List.mem_cons_self q t, h1 ▸ hq⟩
      · rcases ih hN.2 h1 with h2 | h2
        · exact Or.inl h2
        · exact Or.inr ⟨List.mem_cons_of_mem _ h2.1, h2.2⟩

theorem getColl_setColl_self {s : EngineState} {ns : String} {c : List Doc}
    (h : hasColl s ns = true) : getColl (setColl s ns c) ns = c := by
  rcases Option.isSome_iff_exists.mp (hasColl_iff.mp h) with ⟨c0, hc0⟩
  simp [getColl, setColl, lookupColl_setCollList_self hc0]

theorem getColl_setColl_ne {s : EngineState} {ns ns' : String} {c : List Doc}
    (h : ns' ≠ ns) : getColl (setColl s ns c) ns' = getColl s ns' := by
  simp [getColl, setColl, lookupColl_setCollList_ne h]

theorem setColl_meta (s : EngineState) (ns : String) (c : List Doc) :
    (setColl s ns c).meta = s.meta := rfl

theorem ensureColl_meta (s : EngineState) (ns : String) :
    (ensureColl s ns).meta = s.meta := by
  unfold ensureColl
  by_cases h : hasColl s ns <;> simp [h]

theorem hasColl_ensureColl (s : EngineState) (ns : String) :
    hasColl (ensureColl s ns) ns = true := by
  unfold ensureColl
  by_cases h : hasColl s ns = true
  · simp [h]
  · rw [if_neg h]
    simp [hasColl, List.any_append]

theorem getColl_ensureColl (s : EngineState) (ns : String) :
    getColl (ensureColl s ns) ns = getColl s ns := by
  unfold ensureColl
  by_cases h : hasColl s ns = true
  · simp [h]
  · have hnone : lookupColl s.colls ns = none := by
      cases hl : lookupColl s.colls ns with
      | none => rfl
      | some c =>
        rw [hasColl_iff] at h
        simp [hl] at h
    rw [if_neg h]
    have : ∀ cs : List (String × List Doc), lookupColl cs ns = none →
        lookupColl (cs ++ [(ns, [])]) ns = some [] := by
      intro cs
      induction cs with
      | nil => simp [lookupColl]
      | cons q t ih =>
        by_cases hq : q.1 = ns
        · simp [lookupColl, hq]
        · simp [lookupColl, hq]
          exact ih
    simp [getColl, this s.colls hnone, hnone]

theorem lookupColl_append_ne {cs : List (String × List Doc)} {ns ns' : String}
    {c : List Doc} (h : ns' ≠ ns) :
    lookupColl (cs ++ [(ns, c)]) ns' = lookupColl cs ns' := by
  have hkk : ¬ (ns = ns') := fun hh => h hh.symm
  induction cs with
  | nil => simp [lookupColl, hkk]
  | cons q t ih =>
    by_cases hq : q.1 = ns'
    · simp [lookupColl, hq]
    · simp [lookupColl, hq, ih]

theorem getColl_ensureColl_ne {s : EngineState} {ns ns' : String} (h : ns' ≠ ns) :
    getColl (ensureColl s ns) ns' = getColl s ns' := by
  unfold ensureColl
  by_cases hc : hasColl s ns = true
  · simp [hc]
  · rw [if_neg hc]
    simp [getColl, lookupColl_append_ne h]

theorem docKey_upsertDocTransform (doc : Doc) (k : String) :
    docKey (upsertDocTransform doc k) = some k := by
  unfold docKey upsertDocTransform
  rw [dictGet_set_self]

theorem collWrite_find_self {c : List Doc} {k : String} {d1 : Doc}
    (hN : (c.map docKey).Nodup) (hd1 : docKey d1 = some k) :
    collFindByKey (collWrite c k d1) k = [d1] := by
  unfold collWrite
  by_cases h : collHas c k = true
  · rw [if_pos h]
    exact collFindByKey_collReplace_self hN hd1 (collHas_iff.mp h)
  · rw [if_neg h, collFindByKey_append]
    rw [show collFindByKey c k = [] from
      collFindByKey_eq_nil_iff.mpr (collHas_eq_false_iff.mp (Bool.eq_false_iff.mpr h))]
    simp [collFindByKey, hd1]

theorem collWrite_find_ne {c : List Doc} {k k' : String} {d1 : Doc}
    (h : k' ≠ k) (hd1 : docKey d1 = some k) :
    collFindByKey (collWrite c k d1) k' = collFindByKey c k' := by
  unfold collWrite
  by_cases hh : collHas c k = true
  · rw [if_pos hh]
    exact collFindByKey_collReplace_ne (by rw [hd1]; exact fun he => h (Option.some_injective _ he).symm)
  · rw [if_neg hh, collFindByKey_append]
    have hkk : ¬ (k = k') := fun he => h he.symm
    have : collFindByKey [d1] k' = [] := by
      simp [collFindByKey, hd1, hkk]
    simp [this]

theorem mem_collWrite {c : List Doc} {k : String} {d1 d : Doc}
    (hd1 : docKey d1 = some k) (hd : d ∈ collWrite c k d1) :
    d = d1 ∨ (d ∈ c ∧ docKey d ≠ some k) := by
  unfold collWrite at hd
  by_cases hh : collHas c k = true
  · rw [if_pos hh] at hd
    rcases mem_collReplace hd with h1 | h1
    · exact Or.inl h1
    · exact Or.inr ⟨h1.1, fun he => h1.2 (he.trans hd1.symm)⟩
  · rw [if_neg hh] at hd
    rcases List.mem_append.mp hd with h1 | h1
    · exact Or.inr ⟨h1, collHas_eq_false_iff.mp (Bool.eq_false_iff.mpr hh) d h1⟩
    · exact Or.inl (by simpa using h1)

theorem collWrite_keys_nodup {c : List Doc} {k : String} {d1 : Doc}
    (hN : (c.map docKey).Nodup) (hd1 : docKey d1 = some k) :
    ((collWrite c k d1).map docKey).Nodup := by
  unfold collWrite
  by_cases hh : collHas c k = true
  · rw [if_pos hh, collReplace_keys]
    exact hN
  · rw [if_neg hh]
    rw [List.map_append, List.map_singleton, hd1]
    rw [List.nodup_append]
    refine ⟨hN, List.nodup_singleton _, ?_⟩
    intro x hx
    simp only [List.mem_singleton]
    intro hxx
    rcases List.mem_map.mp hx with ⟨d0, hd0, hk0⟩
    exact collHas_eq_false_iff.mp (Bool.eq_false_iff.mpr hh) d0 hd0 (hk0.trans hxx)

theorem collWrite_isSome {c : List Doc} {k : String} {d1 : Doc}
    (hall : ∀ d ∈ c, (docKey d).isSome = true) (hd1 : docKey d1 = some k) :
    ∀ d ∈ collWrite c k d1, (docKey d).isSome = true := by
  intro d hd
  rcases mem_collWrite hd1 hd with h1 | h1
  · rw [h1, hd1]
    rfl
  · exact hall d h1.1

theorem upsert_eq_upsertOk {s : EngineState} {doc : Doc} {ns : String} {t : Nat} {idv : Value}
    (hid : dictGet doc "_id" = some idv)
    (hns : ∀ r ∈ s.meta, r.key = pre_process_id (valueStr idv) → r.ns = ns) :
    upsert s doc ns t =
      ⟨upsertOk s doc ns t (pre_process_id (valueStr idv)), none⟩ := by
  unfold upsert upsertOk
  rw [hid]
  by_cases hE : (metaFind (ensureColl s ns).meta (pre_process_id (valueStr idv)) ns).isEmpty = true
  · have hkabs : metaHasKey (ensureColl s ns).meta (pre_process_id (valueStr idv)) = false := by
      rw [ensureColl_meta] at hE ⊢
      rw [metaHasKey_eq_false_iff]
      intro e he hk
      exact (metaFind_eq_nil_iff.mp (List.isEmpty_iff.mp hE) e he hk) (hns e he hk)
    simp only [hE, if_pos, hkabs, Bool.false_eq_true, if_neg, if_true, if_false]
  · simp only [Bool.not_eq_true] at hE
    simp only [hE, Bool.false_eq_true, if_false]

theorem upsertOk_meta {s : EngineState} {doc : Doc} {ns : String} {t : Nat} {k : String} :
    (upsertOk s doc ns t k).meta =
      if (metaFind s.meta k ns).isEmpty then s.meta ++ [⟨k, ns, t⟩]
      else metaReplace s.meta ⟨k, ns, t⟩ := by
  unfold upsertOk
  simp [setColl_meta, ensureColl_meta]

theorem upsertOk_colls_keys {s : EngineState} {doc : Doc} {ns : String} {t : Nat} {k : String} :
    (upsertOk s doc ns t k).colls.map Prod.fst = (ensureColl s ns).colls.map Prod.fst := by
  unfold upsertOk
  simp [setColl, setCollList_keys]

theorem upsertOk_getColl_self {s : EngineState} {doc : Doc} {ns : String} {t : Nat} {k : String} :
    getColl (upsertOk s doc ns t k) ns =
      collWrite (getColl s ns) k (upsertDocTransform doc k) := by
  unfold upsertOk
  have h1 : hasColl { ensureColl s ns with
      meta := if (metaFind (ensureColl s ns).meta k ns).isEmpty
        then (ensureColl s ns).meta ++ [⟨k, ns, t⟩]
        else metaReplace (ensureColl s ns).meta ⟨k, ns, t⟩ } ns = true := by
    simpa [hasColl] using hasColl_ensureColl s ns
  rw [getColl_setColl_self h1]
  have h2 : getColl { ensureColl s ns with
      meta := if (metaFind (ensureColl s ns).meta k ns).isEmpty
        then (ensureColl s ns).meta ++ [⟨k, ns, t⟩]
        else metaReplace (ensureColl s ns).meta ⟨k, ns, t⟩ } ns = getColl s ns := by
    simpa [getColl] using getColl_ensureColl s ns
  rw [h2]

theorem upsertOk_getColl_ne {s : EngineState} {doc : Doc} {ns ns' : String} {t : Nat} {k : String}
    (h : ns' ≠ ns) : getColl (upsertOk s doc ns t k) ns' = getColl s ns' := by
  unfold upsertOk
  rw [show ∀ s2 : EngineState, ∀ c, getColl (setColl s2 ns c) ns' = getColl s2 ns'
      from fun s2 c => getColl_setColl_ne h]
  simpa [getColl] using getColl_ensureColl_ne (s := s) h

theorem upsertOk_meta_find_self {s : EngineState} {doc : Doc} {ns : String} {t : Nat} {k : String}
    (hN : (s.meta.map MetaRecord.key).Nodup) :
    metaFind (upsertOk s doc ns t k).meta k ns = [⟨k, ns, t⟩] := by
  rw [upsertOk_meta]
  by_cases hE : (metaFind s.meta k ns).isEmpty = true
  · rw [if_pos hE, metaFind_append, List.isEmpty_iff.mp hE]
    simp [metaFind]
  · rw [if_neg hE]
    have : ∃ e ∈ s.meta, e.key = k := by
      cases hm : metaFind s.meta k ns with
      | nil => rw [hm] at hE; simp at hE
      | cons a l =>
        have ha : a ∈ metaFind s.meta k ns := by simp [hm]
        rcases mem_metaFind.mp ha with ⟨h1, h2, _⟩
        exact ⟨a, h1, h2⟩
    exact metaFind_metaReplace_self hN this

theorem upsertOk_meta_find_ne {s : EngineState} {doc : Doc} {ns ns' : String} {t : Nat}
    {k k' : String} (h : k' ≠ k) :
    metaFind (upsertOk s doc ns t k).meta k' ns' = metaFind s.meta k' ns' := by
  rw [upsertOk_meta]
  by_cases hE : (metaFind s.meta k ns).isEmpty = true
  · rw [if_pos hE, metaFind_append]
    have hkk : ¬ (k = k') := fun hh => h hh.symm
    have : metaFind [(⟨k, ns, t⟩ : MetaRecord)] k' ns' = [] := by
      simp [metaFind, hkk]
    simp [this]
  · rw [if_neg hE]
    exact metaFind_metaReplace_ne h

theorem upsertOk_meta_nodup {s : EngineState} {doc : Doc} {ns : String} {t : Nat} {k : String}
    (hN : (s.meta.map MetaRecord.key).Nodup)
    (hns : ∀ r ∈ s.meta, r.key = k → r.ns = ns) :
    ((upsertOk s doc ns t k).meta.map MetaRecord.key).Nodup := by
  rw [upsertOk_meta]
  by_cases hE : (metaFind s.meta k ns).isEmpty = true
  · rw [if_pos hE, List.map_append, List.map_singleton]
    rw [List.nodup_append]
    refine ⟨hN, List.nodup_singleton _, ?_⟩
    intro x hx
    simp only [List.mem_singleton]
    intro hxx
    rcases List.mem_map.mp hx with ⟨e, he, hk⟩
    have hek : e.key = k := by simpa [hxx] using hk
    exact (metaFind_eq_nil_iff.mp (List.isEmpty_iff.mp hE) e he hek) (hns e he hek)
  · rw [if_neg hE, metaReplace_keys]
    exact hN

theorem hasField_eq_false_iff {d : Doc} {k : String} :
    hasField d k = false ↔ dictGet d k = none := by
  induction d with
  | nil => simp [hasField, dictGet]
  | cons p t ih =>
    rw [show hasField (p :: t) k = ((p.1 == k) || hasField t k) from rfl]
    by_cases h : p.1 = k
    · simp [dictGet, h]
    · simp [dictGet, h, ih]

theorem metaReplace_mem_self {m : List MetaRecord} {r : MetaRecord}
    (hex : ∃ e ∈ m, e.key = r.key) : r ∈ metaReplace m r := by
  rcases hex with ⟨e, he, hk⟩
  exact List.mem_map.mpr ⟨e, he, by simp [hk]⟩

theorem setCollList_setCollList (cs : List (String × List Doc)) (ns : String)
    (c c2 : List Doc) : setCollList (setCollList cs ns c) ns c2 = setCollList cs ns c2 := by
  induction cs with
  | nil => rfl
  | cons q t ih =>
    by_cases hq : q.1 = ns
    · simp [setCollList, hq]
    · simp [setCollList, hq, ih]

theorem lookupColl_none_of_hasColl_false {s : EngineState} {ns : String}
    (h : hasColl s ns = false) : lookupColl s.colls ns = none := by
  cases hl : lookupColl s.colls ns with
  | none => rfl
  | some c =>
    rw [← Bool.not_eq_true, hasColl_iff] at h
    simp [hl] at h

theorem remove_eq (s : EngineState) (id ns : String) (t : Nat) :
    remove s id ns t =
      ⟨setCollList s.colls ns (collDelete (getColl s ns) (pre_process_id id)),
        metaDelete s.meta (pre_process_id id)⟩ := rfl

/-- C3: the key encoding `pre_process_id` is a deterministic total
function of the source id's string form: repeated calls on the same id
return the same string; if the string contains no `'.'` separator,
exactly one trailing `'.'` is appended (`encode "111a" = "111a."`); if
it already contains a separator it is returned unchanged
(`encode "1.2" = "1.2"`). -/
theorem C3_pre_process_id_deterministic (s : String) :
    pre_process_id s = pre_process_id s ∧
    (strContainsDot s = false → pre_process_id s = s ++ ".") ∧
    (strContainsDot s = true → pre_process_id s = s) ∧
    pre_process_id "111a" = "111a." ∧
    pre_process_id "1.2" = "1.2" := by
  refine ⟨rfl, ?_, ?_, by decide, by decide⟩
  · intro h
    simp [pre_process_id, h]
  · intro h
    simp [pre_process_id, h]

/-- Witness for C3 at the concrete id `"111a"`. -/
theorem C3_pre_process_id_deterministic_witness :
    strContainsDot "111a" = false ∧ pre_process_id "111a" = "111a" ++ "." :=
  ⟨by decide, (C3_pre_process_id_deterministic "111a").2.1 (by decide)⟩

/-- C5: `search(startTimestamp, endTimestamp)` yields exactly the
metadata records whose timestamp lies in the closed interval
`[startTimestamp, endTimestamp]`, across all namespaces; with records at
timestamps `T1 < T2 < T3`, `search(T1, T2)` returns exactly the records
with timestamps `T1` and `T2` and excludes `T3`. -/
theorem C5_search_closed_range (s : EngineState) (a b : Nat) (r : MetaRecord)
    (cs : List (String × List Doc)) (r1 r2 r3 : MetaRecord)
    (h12 : r1.ts < r2.ts) (h23 : r2.ts < r3.ts) :
    (r ∈ search s a b ↔ r ∈ s.meta ∧ a ≤ r.ts ∧ r.ts ≤ b) ∧
    search ⟨cs, [r1, r2, r3]⟩ r1.ts r2.ts = [r1, r2] := by
  constructor
  · simp [search, List.mem_filter]
  · have hn3 : ¬ (r3.ts ≤ r2.ts) := Nat.not_le.mpr h23
    simp [search, List.filter_cons, Nat.le_of_lt h12, Nat.le_refl, hn3]

/-- Witness for C5 at concrete records with timestamps `10 < 20 < 30`
and the query interval `[10, 20]`. -/
theorem C5_search_closed_range_witness :
    (⟨"1.", "d.c", 10⟩ : MetaRecord).ts < (⟨"2.", "d.c", 20⟩ : MetaRecord).ts ∧
    (⟨"2.", "d.c", 20⟩ : MetaRecord).ts < (⟨"3.", "d.c", 30⟩ : MetaRecord).ts ∧
    search ⟨[], [⟨"1.", "d.c", 10⟩, ⟨"2.", "d.c", 20⟩, ⟨"3.", "d.c", 30⟩]⟩ 10 20
      = [⟨"1.", "d.c", 10⟩, ⟨"2.", "d.c", 20⟩] :=
  ⟨by decide, by decide,
    (C5_search_closed_range ⟨[], []⟩ 0 0 ⟨"", "", 0⟩ []
      ⟨"1.", "d.c", 10⟩ ⟨"2.", "d.c", 20⟩ ⟨"3.", "d.c", 30⟩
      (by decide) (by decide)).2⟩

/-- C7: after `remove(id, ns, t)` neither the document nor its metadata
record is retrievable by the encoded key, and a second `remove` with the
same arguments leaves the state unchanged — deleting a key absent from
either store raises no error (the store delete is modelled from the
spec as idempotent). -/
theorem C7_remove_deletes_both_and_again (s : EngineState) (id ns : String) (t t2 : Nat) :
    metaHasKey (remove s id ns t).meta (pre_process_id id) = false ∧
    metaFind (remove s id ns t).meta (pre_process_id id) ns = [] ∧
    collHas (getColl (remove s id ns t) ns) (pre_process_id id) = false ∧
    collFindByKey (getColl (remove s id ns t) ns) (pre_process_id id) = [] ∧
    remove (remove s id ns t) id ns t2 = remove s id ns t := by
  have hmeta : (remove s id ns t).meta = metaDelete s.meta (pre_process_id id) := rfl
  have hget : getColl (remove s id ns t) ns = collDelete (getColl s ns) (pre_process_id id) := by
    rw [remove_eq]
    cases hl : lookupColl s.colls ns with
    | none =>
      rw [show getColl s ns = [] by simp [getColl, hl]]
      simp [getColl, setCollList_of_lookup_none hl, hl, collDelete]
    | some c0 =>
      rw [show getColl s ns = c0 by simp [getColl, hl]]
      simp [getColl, lookupColl_setCollList_self hl]
  refine ⟨hmeta ▸ metaHasKey_metaDelete, hmeta ▸ metaFind_metaDelete_self,
    hget ▸ collHas_collDelete, hget ▸ collFindByKey_collDelete_self, ?_⟩
  rw [remove_eq (remove s id ns t) id ns t2, hget, hmeta, metaDelete_idem, collDelete_idem,
    show (remove s id ns t).colls
      = setCollList s.colls ns (collDelete (getColl s ns) (pre_process_id id)) from rfl,
    setCollList_setCollList]
  exact (remove_eq s id ns t).symm

/-- C8: when the encoded key has a metadata record for `(key, ns)` but no
document in the target collection, `update` still replaces the metadata
record with a fresh one stamped with the new timestamp, abandons the
update without writing any document (the collections are untouched),
reports the condition via logging, and returns without raising. -/
theorem C8_update_missing_document (s : EngineState) (id : String) (update_spec : Doc)
    (ns : String) (t : Nat)
    (hmeta : (metaFind s.meta (pre_process_id id) ns).isEmpty = false)
    (hdoc : collFindByKey (getColl s ns) (pre_process_id id) = []) :
    update s id update_spec ns t =
      ⟨{ s with meta := metaReplace s.meta ⟨pre_process_id id, ns, t⟩ }, true, none⟩ ∧
    (⟨pre_process_id id, ns, t⟩ : MetaRecord) ∈ (update s id update_spec ns t).state.meta ∧
    (update s id update_spec ns t).state.colls = s.colls := by
  have hkey : ∃ e ∈ s.meta, e.key = pre_process_id id := by
    cases hm : metaFind s.meta (pre_process_id id) ns with
    | nil => rw [hm] at hmeta; simp at hmeta
    | cons a l =>
      have ha : a ∈ metaFind s.meta (pre_process_id id) ns := by simp [hm]
      rcases mem_metaFind.mp ha with ⟨h1, h2, _⟩
      exact ⟨a, h1, h2⟩
  have hupd : update s id update_spec ns t =
      ⟨{ s with meta := metaReplace s.meta ⟨pre_process_id id, ns, t⟩ }, true, none⟩ := by
    simp only [update]
    rw [hmeta]
    simp only [Bool.false_eq_true, if_false]
    have hg : getColl { s with meta := metaReplace s.meta ⟨pre_process_id id, ns, t⟩ } ns
        = getColl s ns := rfl
    rw [hg, hdoc]
  refine ⟨hupd, ?_, ?_⟩
  · rw [hupd]
    exact metaReplace_mem_self hkey
  · rw [hupd]

/-- Witness for C8: a state holding the metadata record `("9.", ns, 2)`
and an empty target collection; the update at timestamp 8 restamps the
record, writes no document, and logs the missing-document condition. -/
theorem C8_update_missing_document_witness :
    ((metaFind (⟨[("d.c", [])], [⟨"9.", "d.c", 2⟩]⟩ : EngineState).meta
        (pre_process_id "9") "d.c").isEmpty = false) ∧
    collFindByKey (getColl (⟨[("d.c", [])], [⟨"9.", "d.c", 2⟩]⟩ : EngineState) "d.c")
        (pre_process_id "9") = [] ∧
    update (⟨[("d.c", [])], [⟨"9.", "d.c", 2⟩]⟩ : EngineState) "9" [("$set", .vdoc [])] "d.c" 8 =
      ⟨⟨[("d.c", [])], [⟨"9.", "d.c", 8⟩]⟩, true, none⟩ := by
  refine ⟨by decide, by rfl, ?_⟩
  have h := (C8_update_missing_document (⟨[("d.c", [])], [⟨"9.", "d.c", 2⟩]⟩ : EngineState)
    "9" [("$set", .vdoc [])] "d.c" 8 (by decide) (by rfl)).1
  rw [h]
  rfl

/-- C10: `upsert` rewrites the caller-supplied mapping in place — the
`'_id'` field is removed and a `'_key'` field holding the encoded key is
added, so the document the store receives differs from what was passed
in; and a mapping with no `'_id'` field makes `upsert` raise `KeyError`
after the lazy collection-creation side effect has already happened, so
the already-transformed mapping cannot be passed through `upsert`
again. -/
theorem C10_upsert_mutates_caller_doc (s : EngineState) (doc : Doc) (ns : String)
    (t : Nat) (idv : Value) :
    (dictGet doc "_id" = some idv →
      hasField (upsertDocTransform doc (pre_process_id (valueStr idv))) "_id" = false ∧
      dictGet (upsertDocTransform doc (pre_process_id (valueStr idv))) "_key"
        = some (.str (pre_process_id (valueStr idv))) ∧
      upsertDocTransform doc (pre_process_id (valueStr idv)) ≠ doc ∧
      (upsert s (upsertDocTransform doc (pre_process_id (valueStr idv))) ns t).err
        = some .keyError) ∧
    (dictGet doc "_id" = none →
      upsert s doc ns t = ⟨ensureColl s ns, some .keyError⟩ ∧
      hasColl (upsert s doc ns t).state ns = true) := by
  have hnone : ∀ k, dictGet (upsertDocTransform doc k) "_id" = none := by
    intro k
    unfold upsertDocTransform
    rw [dictGet_set_ne _ _ _ _ (by decide), dictGet_erase_self]
  constructor
  · intro hid
    refine ⟨hasField_eq_false_iff.mpr (hnone _), ?_, ?_, ?_⟩
    · unfold upsertDocTransform
      exact dictGet_set_self _ _ _
    · intro he
      rw [← he, hnone] at hid
      cases hid
    · unfold upsert
      rw [hnone]
  · intro hid
    constructor
    · unfold upsert
      rw [hid]
    · unfold upsert
      rw [hid]
      exact hasColl_ensureColl s ns

/-- Witness for C10 at the test suite's document
`{"name": "John", "_id": "111a"}`. -/
theorem C10_upsert_mutates_caller_doc_witness :
    dictGet [("name", Value.str "John"), ("_id", Value.str "111a")] "_id"
      = some (Value.str "111a") ∧
    upsertDocTransform [("name", Value.str "John"), ("_id", Value.str "111a")]
        (pre_process_id (valueStr (Value.str "111a")))
      ≠ [("name", Value.str "John"), ("_id", Value.str "111a")] :=
  ⟨by rfl,
    ((C10_upsert_mutates_caller_doc ⟨[], []⟩
        [("name", Value.str "John"), ("_id", Value.str "111a")] "d.c" 1
        (Value.str "111a")).1 (by rfl)).2.2.1⟩

theorem engineState_eq {s1 s2 : EngineState} (h1 : s1.colls = s2.colls)
    (h2 : s1.meta = s2.meta) : s1 = s2 := by
  cases s1
  cases s2
  simp_all

theorem upsertOk_meta_mem {s : EngineState} {doc : Doc} {ns : String} {t : Nat} {k : String}
    {e : MetaRecord} (he : e ∈ (upsertOk s doc ns t k).meta) :
    e = ⟨k, ns, t⟩ ∨ e ∈ s.meta := by
  rw [upsertOk_meta] at he
  by_cases hE : (metaFind s.meta k ns).isEmpty = true
  · rw [if_pos hE] at he
    rcases List.mem_append.mp he with h | h
    · exact Or.inr h
    · exact Or.inl (by simpa using h)
  · rw [if_neg hE] at he
    rcases mem_metaReplace he with h | h
    · exact Or.inl h
    · exact Or.inr h.1

theorem any_fst_eq_ns {cs : List (String × List Doc)} {ns : String} :
    (cs.any fun p => p.1 == ns) = (cs.map Prod.fst).any (fun a => a == ns) := by
  induction cs with
  | nil => rfl
  | cons q t ih => simp [ih]

theorem hasColl_eq_any_keys (s : EngineState) (ns : String) :
    hasColl s ns = (s.colls.map Prod.fst).any (fun a => a == ns) :=
  any_fst_eq_ns

theorem upsertOk_colls {s : EngineState} {doc : Doc} {ns : String} {t : Nat} {k : String} :
    (upsertOk s doc ns t k).colls
      = setCollList (ensureColl s ns).colls ns
          (collWrite (getColl s ns) k (upsertDocTransform doc k)) := by
  unfold upsertOk
  simp only [setColl]
  congr 1
  simpa [getColl] using
    congrArg (fun c => collWrite c k (upsertDocTransform doc k)) (getColl_ensureColl s ns)

theorem upsertOk_hasColl {s : EngineState} {doc : Doc} {ns : String} {t : Nat} {k : String} :
    hasColl (upsertOk s doc ns t k) ns = true := by
  rw [hasColl_eq_any_keys, upsertOk_colls_keys, ← hasColl_eq_any_keys]
  exact hasColl_ensureColl s ns

theorem ensureColl_of_hasColl {s : EngineState} {ns : String}
    (h : hasColl s ns = true) : ensureColl s ns = s := by
  unfold ensureColl
  rw [if_pos h]

theorem setCollList_lookup_self {cs : List (String × List Doc)} {ns : String}
    {c : List Doc} (h : lookupColl cs ns = some c) : setCollList cs ns c = cs := by
  induction cs with
  | nil => rfl
  | cons q t ih =>
    by_cases hq : q.1 = ns
    · simp only [lookupColl, if_pos hq] at h
      cases h
      cases q with
      | mk a b =>
        simp only at hq
        simp [setCollList, hq]
    · simp only [lookupColl, if_neg hq] at h
      simp [setCollList, hq, ih h]

theorem lookupColl_eq_getColl_of_hasColl {s : EngineState} {ns : String}
    (h : hasColl s ns = true) : lookupColl s.colls ns = some (getColl s ns) := by
  rcases Option.isSome_iff_exists.mp (hasColl_iff.mp h) with ⟨c, hc⟩
  simp [getColl, hc]

/-- C2: calling `upsert(d, ns, t)` twice with identical arguments
succeeds both times, the second call changes nothing, and afterwards the
target collection holds exactly one document for the encoded id — the
input minus `'_id'` plus the encoded `'_key'` — while the metadata
collection holds exactly one record for the id, stamped with `t`
(re-upserting after a retry never duplicates either). -/
theorem C2_upsert_idempotent (s : EngineState) (doc : Doc) (ns : String) (t : Nat) (idv : Value)
    (hid : dictGet doc "_id" = some idv)
    (hN : (s.meta.map MetaRecord.key).Nodup)
    (hcoll : ((getColl s ns).map docKey).Nodup)
    (hns : ∀ r ∈ s.meta, r.key = pre_process_id (valueStr idv) → r.ns = ns) :
    (upsert s doc ns t).err = none ∧
    upsert (upsert s doc ns t).state doc ns t = ⟨(upsert s doc ns t).state, none⟩ ∧
    collFindByKey (getColl (upsert s doc ns t).state ns) (pre_process_id (valueStr idv))
      = [upsertDocTransform doc (pre_process_id (valueStr idv))] ∧
    metaFind (upsert s doc ns t).state.meta (pre_process_id (valueStr idv)) ns
      = [⟨pre_process_id (valueStr idv), ns, t⟩] := by
  have h1 := upsert_eq_upsertOk (s := s) (t := t) hid hns
  set k := pre_process_id (valueStr idv) with hk
  set s' := upsertOk s doc ns t k with hs'
  have hstate : (upsert s doc ns t).state = s' := by rw [h1]
  have hd1 : docKey (upsertDocTransform doc k) = some k := docKey_upsertDocTransform doc k
  have hfindDoc : collFindByKey (getColl s' ns) k = [upsertDocTransform doc k] := by
    rw [hs', upsertOk_getColl_self]
    exact collWrite_find_self hcoll hd1
  have hfindMeta : metaFind s'.meta k ns = [⟨k, ns, t⟩] := by
    rw [hs']
    exact upsertOk_meta_find_self hN
  have hns' : ∀ r ∈ s'.meta, r.key = k → r.ns = ns := by
    intro r hr hkey
    rcases upsertOk_meta_mem (hs' ▸ hr) with h | h
    · rw [h]
    · exact hns r h hkey
  have h2 := upsert_eq_upsertOk (s := s') (t := t) hid hns'
  have hsecond : upsertOk s' doc ns t k = s' := by
    have hhas : hasColl s' ns = true := hs' ▸ upsertOk_hasColl
    refine engineState_eq ?_ ?_
    · rw [upsertOk_colls, ensureColl_of_hasColl hhas]
      have hcw : collWrite (getColl s' ns) k (upsertDocTransform doc k) = getColl s' ns := by
        have hmem : upsertDocTransform doc k ∈ getColl s' ns := by
          have : upsertDocTransform doc k ∈ collFindByKey (getColl s' ns) k := by
            rw [hfindDoc]
            exact List.mem_singleton.mpr rfl
          exact (mem_collFindByKey.mp this).1
        have hhask : collHas (getColl s' ns) k = true :=
          collHas_iff.mpr ⟨_, hmem, hd1⟩
        have hN' : ((getColl s' ns).map docKey).Nodup := by
          rw [hs', upsertOk_getColl_self]
          exact collWrite_keys_nodup hcoll hd1
        unfold collWrite
        rw [if_pos hhask]
        exact collReplace_eq_self hN' hmem
      rw [hcw]
      exact setCollList_lookup_self (lookupColl_eq_getColl_of_hasColl hhas)
    · rw [upsertOk_meta]
      have hE : (metaFind s'.meta k ns).isEmpty = false := by
        rw [hfindMeta]
        rfl
      rw [hE]
      simp only [Bool.false_eq_true, if_false]
      have hmem : (⟨k, ns, t⟩ : MetaRecord) ∈ s'.meta := by
        have : (⟨k, ns, t⟩ : MetaRecord) ∈ metaFind s'.meta k ns := by
          rw [hfindMeta]
          exact List.mem_singleton.mpr rfl
        exact (mem_metaFind.mp this).1
      have hN' : (s'.meta.map MetaRecord.key).Nodup := by
        rw [hs']
        exact upsertOk_meta_nodup hN hns
      exact metaReplace_eq_self hN' hmem
  refine ⟨by rw [h1], ?_, by rw [hstate, hfindDoc], by rw [hstate, hfindMeta]⟩
  rw [hstate, h2, hsecond]

/-- Witness for C2: the test suite's upsert of
`{"name": "John", "_id": "111a"}` into `test_db.test_collection` from
the empty store, at timestamp 5. -/
theorem C2_upsert_idempotent_witness :
    dictGet [("name", Value.str "John"), ("_id", Value.str "111a")] "_id"
        = some (Value.str "111a") ∧
    upsert
        (upsert ⟨[], []⟩ [("name", Value.str "John"), ("_id", Value.str "111a")]
          "test_db.test_collection" 5).state
        [("name", Value.str "John"), ("_id", Value.str "111a")] "test_db.test_collection" 5
      = ⟨(upsert ⟨[], []⟩ [("name", Value.str "John"), ("_id", Value.str "111a")]
          "test_db.test_collection" 5).state, none⟩ :=
  ⟨by rfl,
    (C2_upsert_idempotent ⟨[], []⟩ [("name", Value.str "John"), ("_id", Value.str "111a")]
      "test_db.test_collection" 5 (Value.str "111a") (by rfl) (by simp) (by simp [getColl, lookupColl])
      (by intro r hr; simp at hr)).2.1⟩

theorem lastStep_spec (acc : Option MetaRecord) (e : MetaRecord) :
    ∃ b0, lastStep acc e = some b0 ∧ e.ts ≤ b0.ts ∧ (∀ b, acc = some b → b.ts ≤ b0.ts) := by
  cases acc with
  | none => exact ⟨e, rfl, Nat.le_refl _, by intro b hb; cases hb⟩
  | some b =>
    by_cases h : b.ts < e.ts
    · refine ⟨e, ?_, Nat.le_refl _, ?_⟩
      · simp [lastStep, h]
      · intro b' hb'
        cases hb'
        exact Nat.le_of_lt h
    · refine ⟨b, ?_, Nat.not_lt.mp h, ?_⟩
      · simp [lastStep, h]
      · intro b' hb'
        cases hb'
        exact Nat.le_refl _

theorem foldl_lastStep_mem {l : List MetaRecord} :
    ∀ {acc : Option MetaRecord} {r : MetaRecord},
      l.foldl lastStep acc = some r → acc = some r ∨ r ∈ l := by
  induction l with
  | nil =>
    intro acc r h
    exact Or.inl h
  | cons e t ih =>
    intro acc r h
    rw [List.foldl_cons] at h
    rcases ih h with h1 | h1
    · cases acc with
      | none =>
        simp only [lastStep] at h1
        cases h1
        exact Or.inr (List.mem_cons_self _ _)
      | some b =>
        by_cases hb : b.ts < e.ts
        · simp only [lastStep, if_pos hb] at h1
          cases h1
          exact Or.inr (List.mem_cons_self _ _)
        · simp only [lastStep, if_neg hb] at h1
          exact Or.inl h1
    · exact Or.inr (List.mem_cons_of_mem _ h1)

theorem foldl_lastStep_ge {l : List MetaRecord} :
    ∀ {acc : Option MetaRecord} {r : MetaRecord},
      l.foldl lastStep acc = some r →
      (∀ e ∈ l, e.ts ≤ r.ts) ∧ (∀ b, acc = some b → b.ts ≤ r.ts) := by
  induction l with
  | nil =>
    intro acc r h
    refine ⟨by simp, fun b hb => ?_⟩
    rw [hb] at h
    cases h
    exact Nat.le_refl _
  | cons e t ih =>
    intro acc r h
    rw [List.foldl_cons] at h
    rcases lastStep_spec acc e with ⟨b0, hb0, he, hacc⟩
    rw [hb0] at h
    rcases ih h with ⟨h1, h2⟩
    have hb0r : b0.ts ≤ r.ts := h2 b0 rfl
    refine ⟨fun x hx => ?_, fun b hb => Nat.le_trans (hacc b hb) hb0r⟩
    rcases List.mem_cons.mp hx with hx | hx
    · exact hx ▸ Nat.le_trans he hb0r
    · exact h1 x hx

theorem foldl_lastStep_isSome (l : List MetaRecord) (b : MetaRecord) :
    ∃ r, l.foldl lastStep (some b) = some r := by
  induction l generalizing b with
  | nil => exact ⟨b, rfl⟩
  | cons e t ih =>
    rw [List.foldl_cons]
    rcases lastStep_spec (some b) e with ⟨b0, hb0, _, _⟩
    rw [hb0]
    exact ih b0

theorem get_last_doc_eq_none_iff {s : EngineState} :
    get_last_doc s = none ↔ s.meta = [] := by
  constructor
  · intro h
    cases hm : s.meta with
    | nil => rfl
    | cons e t =>
      unfold get_last_doc at h
      rw [hm, List.foldl_cons] at h
      rcases foldl_lastStep_isSome t e with ⟨r, hr⟩
      rw [show lastStep none e = some e from rfl, hr] at h
      cases h
  · intro h
    unfold get_last_doc
    rw [h]
    rfl

theorem get_last_doc_spec {s : EngineState} {r : MetaRecord}
    (h : get_last_doc s = some r) : r ∈ s.meta ∧ ∀ e ∈ s.meta, e.ts ≤ r.ts := by
  unfold get_last_doc at h
  refine ⟨?_, (foldl_lastStep_ge h).1⟩
  rcases foldl_lastStep_mem h with h1 | h1
  · cases h1
  · exact h1

theorem get_last_doc_unique_max {s : EngineState} {r : MetaRecord}
    (hr : r ∈ s.meta) (hmax : ∀ e ∈ s.meta, e = r ∨ e.ts < r.ts) :
    get_last_doc s = some r := by
  cases hlast : get_last_doc s with
  | none =>
    rw [get_last_doc_eq_none_iff.mp hlast] at hr
    cases hr
  | some r' =>
    rcases get_last_doc_spec hlast with ⟨hmem, hge⟩
    rcases hmax r' hmem with h1 | h1
    · rw [h1]
    · exact absurd (hge r hr) (Nat.not_le.mpr h1)

/-- C6: `get_last_doc` returns a metadata record whose timestamp is the
maximum over the whole metadata collection, or an absent result exactly
when the collection is empty; after an upsert whose timestamp strictly
exceeds every stored timestamp it returns that write's record, and when
the upsert re-targets an already-present id the existing record is
restamped rather than a second one created (the record count for the id
stays one, and the total count is unchanged). -/
theorem C6_get_last_doc_max (s0 s : EngineState) (doc : Doc) (ns : String) (t : Nat)
    (idv : Value) (r : MetaRecord)
    (hid : dictGet doc "_id" = some idv)
    (hN : (s.meta.map MetaRecord.key).Nodup)
    (hns : ∀ e ∈ s.meta, e.key = pre_process_id (valueStr idv) → e.ns = ns)
    (hlt : ∀ e ∈ s.meta, e.ts < t) :
    (get_last_doc s0 = none ↔ s0.meta = []) ∧
    (get_last_doc s0 = some r → r ∈ s0.meta ∧ ∀ e ∈ s0.meta, e.ts ≤ r.ts) ∧
    get_last_doc (upsert s doc ns t).state
      = some ⟨pre_process_id (valueStr idv), ns, t⟩ ∧
    metaFind (upsert s doc ns t).state.meta (pre_process_id (valueStr idv)) ns
      = [⟨pre_process_id (valueStr idv), ns, t⟩] ∧
    ((metaFind s.meta (pre_process_id (valueStr idv)) ns).isEmpty = false →
      (upsert s doc ns t).state.meta.length = s.meta.length) := by
  have h1 := upsert_eq_upsertOk (s := s) (t := t) hid hns
  set k := pre_process_id (valueStr idv) with hk
  have hstate : (upsert s doc ns t).state = upsertOk s doc ns t k := by rw [h1]
  have hfind : metaFind (upsertOk s doc ns t k).meta k ns = [⟨k, ns, t⟩] :=
    upsertOk_meta_find_self hN
  have hmem : (⟨k, ns, t⟩ : MetaRecord) ∈ (upsertOk s doc ns t k).meta := by
    have : (⟨k, ns, t⟩ : MetaRecord) ∈ metaFind (upsertOk s doc ns t k).meta k ns := by
      rw [hfind]
      exact List.mem_singleton.mpr rfl
    exact (mem_metaFind.mp this).1
  refine ⟨get_last_doc_eq_none_iff, get_last_doc_spec, ?_, by rw [hstate]; exact hfind, ?_⟩
  · rw [hstate]
    refine get_last_doc_unique_max hmem (fun e he => ?_)
    rcases upsertOk_meta_mem he with h2 | h2
    · exact Or.inl h2
    · exact Or.inr (hlt e h2)
  · intro hE
    rw [hstate, upsertOk_meta, hE]
    simp only [Bool.false_eq_true, if_false]
    unfold metaReplace
    exact List.length_map _ _

/-- Witness for C6: re-upserting id `"3"` at timestamp 4 into a state
whose records carry timestamps 1, 2, 3 (ids `"1."`, `"2."`, `"3."`). -/
theorem C6_get_last_doc_max_witness :
    get_last_doc (upsert
        (⟨[("d.c", [[("_key", Value.str "3.")]])],
          [⟨"1.", "d.c", 1⟩, ⟨"2.", "d.c", 2⟩, ⟨"3.", "d.c", 3⟩]⟩ : EngineState)
        [("name", Value.str "Sam"), ("_id", Value.str "3")] "d.c" 4).state
      = some ⟨"3.", "d.c", 4⟩ :=
  (C6_get_last_doc_max ⟨[], []⟩
    (⟨[("d.c", [[("_key", Value.str "3.")]])],
      [⟨"1.", "d.c", 1⟩, ⟨"2.", "d.c", 2⟩, ⟨"3.", "d.c", 3⟩]⟩ : EngineState)
    [("name", Value.str "Sam"), ("_id", Value.str "3")] "d.c" 4
    (Value.str "3") ⟨"", "", 0⟩ (by rfl) (by decide)
    (by decide) (by decide)).2.2.1

theorem update_found (s : EngineState) (id : String) (update_spec : Doc) (ns : String)
    (t : Nat) {d : Doc} {ds : List Doc}
    (hfetch : collFindByKey (getColl s ns) (pre_process_id id) = d :: ds) :
    update s id update_spec ns t =
      ⟨(upsert (if (metaFind s.meta (pre_process_id id) ns).isEmpty = true then s
            else { s with meta := metaReplace s.meta ⟨pre_process_id id, ns, t⟩ })
          (dictSet (apply_update d update_spec) "_id" (.str (pre_process_id id))) ns t).state,
        false,
        (upsert (if (metaFind s.meta (pre_process_id id) ns).isEmpty = true then s
            else { s with meta := metaReplace s.meta ⟨pre_process_id id, ns, t⟩ })
          (dictSet (apply_update d update_spec) "_id" (.str (pre_process_id id))) ns t).err⟩ := by
  simp only [update]
  by_cases hE : (metaFind s.meta (pre_process_id id) ns).isEmpty = true
  · rw [if_pos hE, hfetch]
  · rw [if_neg hE,
      show collFindByKey
          (getColl { s with meta := metaReplace s.meta ⟨pre_process_id id, ns, t⟩ } ns)
          (pre_process_id id) = d :: ds from hfetch]

/-- C9: `apply_update` implements the three patch kinds — a `$set` patch
adds or overwrites the named fields, a `$unset` patch removes them, and
a patch with neither is taken literally as the full replacement
document; for an existing document, `update` applies the patch to the
fetched document and writes the result back through `upsert` under the
same encoded key.  On the spec's example, `{"name": "John"}` plus
`{"$set": {"city": "New York"}}` stores
`{"name": "John", "_key": "1.", "city": "New York"}`, and the
subsequent `{"$unset": {"city": 1}}` stores
`{"name": "John", "_key": "1."}`. -/
theorem C9_update_patch_semantics (s : EngineState) (id : String) (update_spec d : Doc)
    (ds : List Doc) (ns : String) (t : Nat) (fs : List (String × Value))
    (hN : (s.meta.map MetaRecord.key).Nodup)
    (hcollN : ((getColl s ns).map docKey).Nodup)
    (hns : ∀ r ∈ s.meta, r.key = pre_process_id id → r.ns = ns)
    (hfetch : collFindByKey (getColl s ns) (pre_process_id id) = d :: ds) :
    apply_update d [("$set", Value.vdoc fs)]
      = fs.foldl (fun a p => dictSet a p.1 p.2) d ∧
    apply_update d [("$unset", Value.vdoc fs)]
      = fs.foldl (fun a p => dictErase a p.1) d ∧
    (hasField update_spec "$set" = false → hasField update_spec "$unset" = false →
      apply_update d update_spec = update_spec) ∧
    (update s id update_spec ns t).err = none ∧
    (update s id update_spec ns t).loggedMissing = false ∧
    collFindByKey (getColl (update s id update_spec ns t).state ns) (pre_process_id id)
      = [dictSet (dictErase (apply_update d update_spec) "_id") "_key"
          (.str (pre_process_id id))] ∧
    getColl exUpdSet "test_db.test_collection"
      = [[("name", .str "John"), ("_key", .str "1."), ("city", .str "New York")]] ∧
    getColl exUpdUnset "test_db.test_collection"
      = [[("name", .str "John"), ("_key", .str "1.")]] := by
  have hliteral : ∀ spec2 : Doc, hasField spec2 "$set" = false →
      hasField spec2 "$unset" = false → apply_update d spec2 = spec2 := by
    intro spec2 h1 h2
    unfold apply_update
    rw [if_pos ⟨h1, h2⟩]
  set k := pre_process_id id with hkdef
  set s1 : EngineState :=
    (if (metaFind s.meta k ns).isEmpty = true then s
     else { s with meta := metaReplace s.meta ⟨k, ns, t⟩ }) with hs1
  set updated : Doc := dictSet (apply_update d update_spec) "_id" (.str k) with hupd
  have hupdeq := update_found s id update_spec ns t hfetch
  have hidget : dictGet updated "_id" = some (.str k) := dictGet_set_self _ _ _
  have hkeyval : pre_process_id (valueStr (Value.str k)) = k := by
    rw [show valueStr (Value.str k) = k from rfl, hkdef]
    exact pre_process_id_idem id
  have hget1 : getColl s1 ns = getColl s ns := by
    rw [hs1]
    by_cases hE : (metaFind s.meta k ns).isEmpty = true
    · rw [if_pos hE]
    · rw [if_neg hE]
      rfl
  have hns1 : ∀ r ∈ s1.meta, r.key = pre_process_id (valueStr (Value.str k)) → r.ns = ns := by
    rw [hkeyval, hs1]
    by_cases hE : (metaFind s.meta k ns).isEmpty = true
    · rw [if_pos hE]
      exact hns
    · rw [if_neg hE]
      intro r hr hk
      rcases mem_metaReplace hr with h1 | h1
      · rw [h1]
      · exact hns r h1.1 hk
  have hw := upsert_eq_upsertOk (s := s1) (t := t) hidget hns1
  rw [hkeyval] at hw
  have herase : upsertDocTransform updated k
      = dictSet (dictErase (apply_update d update_spec) "_id") "_key" (.str k) := by
    rw [hupd]
    unfold upsertDocTransform
    rw [dictErase_set_self]
  refine ⟨by rfl, by rfl, hliteral update_spec, ?_, ?_, ?_, by rfl, by rfl⟩
  · rw [hupdeq]
    simp only [hw]
  · rw [hupdeq]
  · rw [hupdeq]
    simp only [hw, upsertOk_getColl_self]
    rw [hget1, ← herase]
    exact collWrite_find_self hcollN (docKey_upsertDocTransform updated k)

/-- Witness for C9: the spec's example state — document
`{"name": "John", "_key": "1."}` stored under `test_db.test_collection`
with its metadata record — updated with `{"$set": {"city": "Boston"}}`. -/
theorem C9_update_patch_semantics_witness :
    collFindByKey (getColl exUpdBase "test_db.test_collection") (pre_process_id "1")
      = [[("name", Value.str "John"), ("_key", Value.str "1.")]] ∧
    (update exUpdBase "1" [("$set", Value.vdoc [("city", Value.str "Boston")])]
      "test_db.test_collection" 9).err = none :=
  ⟨by rfl,
    (C9_update_patch_semantics exUpdBase "1"
      [("$set", Value.vdoc [("city", Value.str "Boston")])]
      [("name", Value.str "John"), ("_key", Value.str "1.")] []
      "test_db.test_collection" 9 []
      (by decide) (by decide)
      (by decide) (by rfl)).2.2.2.1⟩

theorem chunksOf_nil {α : Type} (k : Nat) : chunksOf k ([] : List α) = [] := by
  rw [chunksOf]

theorem chunksOf_cons {α : Type} (k : Nat) (a : α) (t : List α) (hk : k ≠ 0) :
    chunksOf k (a :: t) = (a :: t).take k :: chunksOf k ((a :: t).drop k) := by
  rw [chunksOf]
  rw [dif_neg hk]

theorem chunksOf_flatten {α : Type} (k : Nat) (hk : k ≠ 0) (l : List α) :
    (chunksOf k l).flatten = l := by
  have H : ∀ n, ∀ l2 : List α, l2.length ≤ n → (chunksOf k l2).flatten = l2 := by
    intro n
    induction n with
    | zero =>
      intro l2 hl
      rw [List.eq_nil_of_length_eq_zero (Nat.le_zero.mp hl), chunksOf_nil]
      rfl
    | succ n ih =>
      intro l2 hl
      cases l2 with
      | nil =>
        rw [chunksOf_nil]
        rfl
      | cons a t =>
        rw [chunksOf_cons k a t hk, List.flatten_cons,
          ih ((a :: t).drop k) (by
            rw [List.length_drop]
            simp only [List.length_cons] at hl ⊢
            have hk1 : 1 ≤ k := Nat.one_le_iff_ne_zero.mpr hk
            omega),
          List.take_append_drop]
  exact H l.length l (Nat.le_refl _)

theorem chunksOf_mem {α : Type} {k : Nat} (hk : k ≠ 0) {l : List α} {c : List α}
    (hc : c ∈ chunksOf k l) : c ≠ [] ∧ c.length ≤ k := by
  have H : ∀ n, ∀ l2 : List α, l2.length ≤ n → c ∈ chunksOf k l2 → c ≠ [] ∧ c.length ≤ k := by
    intro n
    induction n with
    | zero =>
      intro l2 hl hc2
      rw [List.eq_nil_of_length_eq_zero (Nat.le_zero.mp hl), chunksOf_nil] at hc2
      cases hc2
    | succ n ih =>
      intro l2 hl hc2
      cases l2 with
      | nil =>
        rw [chunksOf_nil] at hc2
        cases hc2
      | cons a t =>
        rw [chunksOf_cons k a t hk] at hc2
        rcases List.mem_cons.mp hc2 with h | h
        · subst h
          refine ⟨?_, by rw [List.length_take]; exact Nat.min_le_left _ _⟩
          rw [List.take_cons (Nat.pos_of_ne_zero hk)]
          exact List.cons_ne_nil _ _
        · refine ih ((a :: t).drop k) ?_ h
          rw [List.length_drop]
          simp only [List.length_cons] at hl ⊢
          have hk1 : 1 ≤ k := Nat.one_le_iff_ne_zero.mpr hk
          omega
  exact H l.length l (Nat.le_refl _) hc

theorem chunksOf_dropLast {α : Type} {k : Nat} (hk : k ≠ 0) {l : List α} {c : List α}
    (hc : c ∈ (chunksOf k l).dropLast) : c.length = k := by
  have H : ∀ n, ∀ l2 : List α, l2.length ≤ n →
      c ∈ (chunksOf k l2).dropLast → c.length = k := by
    intro n
    induction n with
    | zero =>
      intro l2 hl hc2
      rw [List.eq_nil_of_length_eq_zero (Nat.le_zero.mp hl), chunksOf_nil] at hc2
      cases hc2
    | succ n ih =>
      intro l2 hl hc2
      cases l2 with
      | nil =>
        rw [chunksOf_nil] at hc2
        cases hc2
      | cons a t =>
        rw [chunksOf_cons k a t hk] at hc2
        by_cases hrest : chunksOf k ((a :: t).drop k) = []
        · rw [hrest] at hc2
          cases hc2
        · rw [List.dropLast_cons_of_ne_nil hrest] at hc2
          rcases List.mem_cons.mp hc2 with h | h
          · subst h
            have hdr : (a :: t).drop k ≠ [] := by
              intro hdd
              rw [hdd, chunksOf_nil] at hrest
              exact hrest rfl
            have hlen : k < (a :: t).length := by
              by_contra hle
              exact hdr (List.drop_eq_nil_iff.mpr (Nat.le_of_not_lt hle))
            rw [List.length_take]
            exact Nat.min_eq_left (Nat.le_of_lt hlen)
          · refine ih ((a :: t).drop k) ?_ h
            rw [List.length_drop]
            simp only [List.length_cons] at hl ⊢
            have hk1 : 1 ≤ k := Nat.one_le_iff_ne_zero.mpr hk
            omega
  exact H l.length l (Nat.le_refl _) hc

theorem mapM_bulkTransform {ns : String} {t : Nat} {ch : List Doc}
    (h : ∀ d ∈ ch, (dictGet d "_id").isSome = true) :
    ch.mapM (bulkTransform ns t) = some (ch.map (bulkT ns t)) := by
  induction ch with
  | nil => rfl
  | cons d tl ih =>
    rcases Option.isSome_iff_exists.mp (h d (List.mem_cons_self d tl)) with ⟨idv, hidv⟩
    have htrans : bulkTransform ns t d = some (bulkT ns t d) := by
      unfold bulkTransform bulkT bulkKey
      rw [hidv]
      rfl
    rw [List.mapM_cons, htrans, ih (fun x hx => h x (List.mem_cons_of_mem d hx))]
    rfl

theorem bulkGo_success (ns : String) (t : Nat) (chs : List (List Doc)) (s : EngineState)
    (hall : ∀ ch ∈ chs, ∀ d ∈ ch, (dictGet d "_id").isSome = true) :
    bulkGo ns t chs s =
      (chs.foldl (fun st ch => bulkCommit ns st (ch.map (bulkT ns t))) s, none) := by
  induction chs generalizing s with
  | nil => rfl
  | cons ch rest ih =>
    rw [show bulkGo ns t (ch :: rest) s =
        (match ch.mapM (bulkTransform ns t) with
         | none => (s, some .keyError)
         | some prs => bulkGo ns t rest (bulkCommit ns s prs)) from rfl,
      mapM_bulkTransform (hall ch (List.mem_cons_self ch rest))]
    rw [List.foldl_cons]
    exact ih (bulkCommit ns s (ch.map (bulkT ns t)))
      (fun c hc d hd => hall c (List.mem_cons_of_mem ch hc) d hd)

theorem bulkCommit_meta (ns : String) (s : EngineState) (prs : List (Doc × MetaRecord)) :
    (bulkCommit ns s prs).meta = metaImportBulk s.meta (prs.map (fun p => p.2)) := rfl

theorem bulkCommit_getColl (ns : String) (s : EngineState) (prs : List (Doc × MetaRecord))
    (hhas : hasColl s ns = true) :
    getColl (bulkCommit ns s prs) ns
      = collImportBulk (getColl s ns) (prs.map (fun p => p.1)) := by
  unfold bulkCommit
  exact getColl_setColl_self hhas

theorem bulkCommit_hasColl (ns ns' : String) (s : EngineState) (prs : List (Doc × MetaRecord)) :
    hasColl (bulkCommit ns s prs) ns' = hasColl s ns' := by
  rw [hasColl_eq_any_keys, hasColl_eq_any_keys]
  unfold bulkCommit
  simp [setColl, setCollList_keys]

theorem bulk_fold_meta (ns : String) (t : Nat) (chs : List (List Doc)) (s : EngineState) :
    (chs.foldl (fun st ch => bulkCommit ns st (ch.map (bulkT ns t))) s).meta
      = metaImportBulk s.meta (chs.flatten.map (fun d => (bulkT ns t d).2)) := by
  induction chs generalizing s with
  | nil => rfl
  | cons ch rest ih =>
    rw [List.foldl_cons, ih, bulkCommit_meta, List.flatten_cons, List.map_append]
    unfold metaImportBulk
    rw [List.foldl_append, List.map_map]
    rfl

theorem bulk_fold_getColl (ns : String) (t : Nat) (chs : List (List Doc)) (s : EngineState)
    (hhas : hasColl s ns = true) :
    getColl (chs.foldl (fun st ch => bulkCommit ns st (ch.map (bulkT ns t))) s) ns
      = collImportBulk (getColl s ns) (chs.flatten.map (fun d => (bulkT ns t d).1)) := by
  induction chs generalizing s with
  | nil => rfl
  | cons ch rest ih =>
    rw [List.foldl_cons,
      ih (bulkCommit ns s (ch.map (bulkT ns t))) (by rw [bulkCommit_hasColl]; exact hhas),
      bulkCommit_getColl ns s _ hhas, List.flatten_cons, List.map_append]
    unfold collImportBulk
    rw [List.foldl_append, List.map_map]
    rfl

theorem collImportBulk_all_fresh {c : List Doc} {ds : List Doc}
    (hN : ((c ++ ds).map docKey).Nodup) : collImportBulk c ds = c ++ ds := by
  induction ds generalizing c with
  | nil => simp [collImportBulk]
  | cons d tl ih =>
    have hone : collImportOne c d = c ++ [d] := by
      unfold collImportOne
      cases hkd : docKey d with
      | none => rfl
      | some k =>
        have hhas : collHas c k = false := by
          rw [collHas_eq_false_iff]
          intro e he hek
          rw [List.map_append, List.map_cons, List.nodup_append] at hN
          refine hN.2.2 (List.mem_map.mpr ⟨e, he, rfl⟩) ?_
          rw [hek, ← hkd, ← List.map_cons]
          exact List.mem_map.mpr ⟨d, List.mem_cons_self _ _, rfl⟩
        show (if collHas c k = true then collReplace c d else c ++ [d]) = c ++ [d]
        rw [hhas]
        simp
    rw [show collImportBulk c (d :: tl) = collImportBulk (collImportOne c d) tl from rfl,
      hone, ih (by rwa [← List.append_cons])]
    simp

theorem metaImportBulk_all_fresh {m : List MetaRecord} {rs : List MetaRecord}
    (hN : ((m ++ rs).map MetaRecord.key).Nodup) : metaImportBulk m rs = m ++ rs := by
  induction rs generalizing m with
  | nil => simp [metaImportBulk]
  | cons r tl ih =>
    have hone : metaImportOne m r = m ++ [r] := by
      unfold metaImportOne
      have hhas : metaHasKey m r.key = false := by
        rw [metaHasKey_eq_false_iff]
        intro e he hek
        rw [List.map_append, List.map_cons, List.nodup_append] at hN
        refine hN.2.2 (List.mem_map.mpr ⟨e, he, rfl⟩) ?_
        rw [hek, ← List.map_cons]
        exact List.mem_map.mpr ⟨r, List.mem_cons_self _ _, rfl⟩
      rw [hhas]
      simp
    rw [show metaImportBulk m (r :: tl) = metaImportBulk (metaImportOne m r) tl from rfl,
      hone, ih (by rwa [← List.append_cons])]
    simp

/-- C4: for every finite input sequence and positive batch size, the
bulk loader consumes the sequence in chunks of the configured size
(every submitted chunk is nonempty and no larger than the batch size,
every non-final chunk is exactly the batch size, and the chunks
concatenate back to the input — an empty final chunk is never
submitted), and from an empty store with pairwise distinct encoded ids
it lands exactly `n` documents and `n` metadata entries; in particular
`n = 1000` yields exactly 1000 stored documents whether or not the
batch size divides 1000. -/
theorem C4_bulk_upsert_complete (docs : List Doc) (ns : String) (t chunk_size : Nat)
    (hk : chunk_size ≠ 0)
    (hall : ∀ d ∈ docs, (dictGet d "_id").isSome = true)
    (hkeys : (docs.map bulkKey).Nodup) :
    (chunksOf chunk_size docs).flatten = docs ∧
    (∀ c ∈ chunksOf chunk_size docs, c ≠ [] ∧ c.length ≤ chunk_size) ∧
    (∀ c ∈ (chunksOf chunk_size docs).dropLast, c.length = chunk_size) ∧
    (bulk_upsert ⟨[], []⟩ docs ns t chunk_size).2 = none ∧
    (getColl (bulk_upsert ⟨[], []⟩ docs ns t chunk_size).1 ns).length = docs.length ∧
    (bulk_upsert ⟨[], []⟩ docs ns t chunk_size).1.meta.length = docs.length ∧
    (docs.length = 1000 →
      (getColl (bulk_upsert ⟨[], []⟩ docs ns t chunk_size).1 ns).length = 1000) := by
  have hflat := chunksOf_flatten chunk_size hk docs
  have hallchunks : ∀ ch ∈ chunksOf chunk_size docs, ∀ d ∈ ch,
      (dictGet d "_id").isSome = true := by
    intro ch hch d hd
    exact hall d (hflat ▸ List.mem_flatten.mpr ⟨ch, hch, hd⟩)
  have hrun : bulk_upsert ⟨[], []⟩ docs ns t chunk_size =
      ((chunksOf chunk_size docs).foldl
        (fun st ch => bulkCommit ns st (ch.map (bulkT ns t)))
        (ensureColl ⟨[], []⟩ ns), none) := by
    unfold bulk_upsert
    exact bulkGo_success ns t _ _ hallchunks
  have hhas0 : hasColl (ensureColl ⟨[], []⟩ ns) ns = true := hasColl_ensureColl _ ns
  have hget0 : getColl (ensureColl ⟨[], []⟩ ns) ns = [] := by
    rw [getColl_ensureColl]
    rfl
  have hmeta0 : (ensureColl (⟨[], []⟩ : EngineState) ns).meta = [] := by
    rw [ensureColl_meta]
  have hdocKeys : (docs.map (fun d => docKey (bulkT ns t d).1)) = docs.map (fun d => some (bulkKey d)) := by
    refine List.map_congr_left (fun d _ => ?_)
    unfold bulkT
    exact docKey_upsertDocTransform d (bulkKey d)
  have hsomeN : (docs.map (fun d => some (bulkKey d))).Nodup := by
    rw [show docs.map (fun d => some (bulkKey d)) = (docs.map bulkKey).map some by
      rw [List.map_map]
      rfl]
    exact (List.nodup_map_iff (Option.some_injective _)).mpr hkeys
  have hcollLen : (getColl (bulk_upsert ⟨[], []⟩ docs ns t chunk_size).1 ns).length
      = docs.length := by
    rw [hrun]
    rw [bulk_fold_getColl ns t _ _ hhas0, hget0, hflat]
    rw [collImportBulk_all_fresh (by
      rw [List.nil_append, List.map_map]
      rw [show (docs.map (docKey ∘ fun d => (bulkT ns t d).1))
          = docs.map (fun d => docKey (bulkT ns t d).1) from rfl]
      rw [hdocKeys]
      exact hsomeN)]
    simp
  refine ⟨hflat, fun c hc => chunksOf_mem hk hc, fun c hc => chunksOf_dropLast hk hc,
    by rw [hrun], hcollLen, ?_, fun h1000 => by rw [hcollLen, h1000]⟩
  rw [hrun]
  simp only
  rw [bulk_fold_meta ns t _ _, hmeta0, hflat]
  rw [metaImportBulk_all_fresh (by
    rw [List.nil_append, List.map_map]
    rw [show (docs.map (MetaRecord.key ∘ fun d => (bulkT ns t d).2))
        = docs.map bulkKey from rfl]
    exact hkeys)]
  simp

/-- Witness for C4: three documents with ids 0, 1, 2 pushed through the
loader with batch size 2 (one full chunk, one partial). -/
theorem C4_bulk_upsert_complete_witness :
    ((2 : Nat) ≠ 0) ∧
    (getColl (bulk_upsert ⟨[], []⟩
        [[("_id", Value.nat 0)], [("_id", Value.nat 1)], [("_id", Value.nat 2)]]
        "d.c" 7 2).1 "d.c").length = 3 :=
  ⟨by decide,
    (C4_bulk_upsert_complete
      [[("_id", Value.nat 0)], [("_id", Value.nat 1)], [("_id", Value.nat 2)]]
      "d.c" 7 2 (by decide) (by decide) (by decide)).2.2.2.2.1⟩

theorem upsert_success_hns {s : EngineState} {doc : Doc} {ns : String} {t : Nat} {idv : Value}
    (hid : dictGet doc "_id" = some idv)
    (hN : (s.meta.map MetaRecord.key).Nodup)
    (hsucc : (upsert s doc ns t).err = none) :
    ∀ r ∈ s.meta, r.key = pre_process_id (valueStr idv) → r.ns = ns := by
  intro r hr hk
  by_contra hneq
  have hfind : metaFind s.meta (pre_process_id (valueStr idv)) ns = [] := by
    refine metaFind_eq_nil_iff.mpr (fun e he hek hens => ?_)
    have hre : r = e := List.inj_on_of_nodup_map hN hr he (by rw [hk, hek])
    exact hneq (by rw [hre, hens])
  simp only [upsert, hid] at hsucc
  rw [show (ensureColl s ns).meta = s.meta from ensureColl_meta s ns, hfind,
    metaHasKey_iff.mpr ⟨r, hr, hk⟩] at hsucc
  simp at hsucc

theorem ensureColl_keys_nodup {s : EngineState} {ns : String}
    (hN : (s.colls.map Prod.fst).Nodup) :
    ((ensureColl s ns).colls.map Prod.fst).Nodup := by
  unfold ensureColl
  by_cases h : hasColl s ns = true
  · rw [if_pos h]
    exact hN
  · rw [if_neg h]
    rw [List.map_append, List.nodup_append]
    refine ⟨hN, by simp, ?_⟩
    intro x hx hx2
    have hxns : x = ns := by simpa using hx2
    rcases List.mem_map.mp hx with ⟨p, hp, hp1⟩
    refine h ?_
    simp only [hasColl, List.any_eq_true]
    refine ⟨p, hp, ?_⟩
    simp [hp1, hxns]

theorem mem_ensureColl {s : EngineState} {ns : String} {p : String × List Doc}
    (hp : p ∈ (ensureColl s ns).colls) : p ∈ s.colls ∨ p = (ns, []) := by
  unfold ensureColl at hp
  by_cases h : hasColl s ns = true
  · rw [if_pos h] at hp
    exact Or.inl hp
  · rw [if_neg h] at hp
    rcases List.mem_append.mp hp with h1 | h1
    · exact Or.inl h1
    · exact Or.inr (by simpa using h1)

theorem getColl_collKeysWF {s : EngineState} {ns : String}
    (hwf : ∀ p ∈ s.colls, collKeysWF p.2) : collKeysWF (getColl s ns) := by
  cases hl : lookupColl s.colls ns with
  | none =>
    rw [show getColl s ns = [] from by simp [getColl, hl]]
    exact ⟨by simp, List.nodup_nil⟩
  | some c =>
    rw [show getColl s ns = c from by simp [getColl, hl]]
    exact hwf (ns, c) (lookupColl_mem hl)

theorem mem_getColl_colls {s : EngineState} {ns : String}
    (h : getColl s ns ≠ []) : (ns, getColl s ns) ∈ s.colls := by
  cases hl : lookupColl s.colls ns with
  | none => exact absurd (by simp [getColl, hl]) h
  | some c =>
    rw [show getColl s ns = c from by simp [getColl, hl]]
    exact lookupColl_mem hl

theorem metaCount_one_exists {m : List MetaRecord} {k ns : String}
    (h : metaCount m k ns = 1) : ∃ e ∈ m, e.key = k ∧ e.ns = ns := by
  unfold metaCount at h
  cases hm : metaFind m k ns with
  | nil => rw [hm] at h; cases h
  | cons e l =>
    have he : e ∈ metaFind m k ns := by simp [hm]
    rcases mem_metaFind.mp he with ⟨h1, h2, h3⟩
    exact ⟨e, h1, h2, h3⟩

theorem upsertOk_MetaIndexInv {s : EngineState} {doc : Doc} {ns : String} {t : Nat}
    {idv : Value} (hid : dictGet doc "_id" = some idv)
    (hInv : MetaIndexInv s)
    (hns : ∀ r ∈ s.meta, r.key = pre_process_id (valueStr idv) → r.ns = ns) :
    MetaIndexInv (upsertOk s doc ns t (pre_process_id (valueStr idv))) := by
  obtain ⟨⟨hkeysN, hcollsWF, hmetaN⟩, hinv⟩ := hInv
  set k := pre_process_id (valueStr idv) with hkdef
  have hgetWF : collKeysWF (getColl s ns) := getColl_collKeysWF hcollsWF
  have hd1 : docKey (upsertDocTransform doc k) = some k := docKey_upsertDocTransform doc k
  have hensN : ((ensureColl s ns).colls.map Prod.fst).Nodup := ensureColl_keys_nodup hkeysN
  have hmemColls : ∀ p ∈ (upsertOk s doc ns t k).colls,
      p = (ns, collWrite (getColl s ns) k (upsertDocTransform doc k)) ∨
      (p ∈ (ensureColl s ns).colls ∧ p.1 ≠ ns) := by
    intro p hp
    rw [upsertOk_colls] at hp
    exact mem_setCollList hensN hp
  refine ⟨⟨?_, ?_, upsertOk_meta_nodup hmetaN hns⟩, ?_⟩
  · rw [upsertOk_colls_keys]
    exact hensN
  · intro p hp
    rcases hmemColls p hp with h1 | h1
    · rw [h1]
      exact ⟨collWrite_isSome hgetWF.1 hd1, collWrite_keys_nodup hgetWF.2 hd1⟩
    · rcases mem_ensureColl h1.1 with h2 | h2
      · exact hcollsWF p h2
      · rw [h2]
        exact ⟨by simp, List.nodup_nil⟩
  · intro p hp d hd
    rcases hmemColls p hp with h1 | h1
    · subst h1
      rcases mem_collWrite hd1 hd with h2 | h2
      · rw [h2, show keyD (upsertDocTransform doc k) = k from by
          unfold keyD; rw [hd1]; rfl]
        unfold metaCount
        rw [upsertOk_meta_find_self hmetaN]
        rfl
      · rcases Option.isSome_iff_exists.mp (hgetWF.1 d h2.1) with ⟨k', hk'⟩
        have hkk : k' ≠ k := fun he => h2.2 (by rw [hk', he])
        rw [show keyD d = k' from by unfold keyD; rw [hk']; rfl]
        unfold metaCount
        rw [upsertOk_meta_find_ne hkk]
        have hdc : d ∈ getColl s ns := h2.1
        have hcoll_mem : (ns, getColl s ns) ∈ s.colls :=
          mem_getColl_colls (List.ne_nil_of_mem hdc)
        have := hinv (ns, getColl s ns) hcoll_mem d hdc
        rw [show keyD d = k' from by unfold keyD; rw [hk']; rfl] at this
        exact this
    · rcases mem_ensureColl h1.1 with h2 | h2
      · have hwfp := hcollsWF p h2
        rcases Option.isSome_iff_exists.mp (hwfp.1 d hd) with ⟨k', hk'⟩
        rw [show keyD d = k' from by unfold keyD; rw [hk']; rfl]
        have hold := hinv p h2 d hd
        rw [show keyD d = k' from by unfold keyD; rw [hk']; rfl] at hold
        by_cases hkk : k' = k
        · subst hkk
          rcases metaCount_one_exists hold with ⟨e, he, hek, hens⟩
          exact absurd (hens.symm.trans (hns e he hek)) h1.2
        · unfold metaCount
          rw [upsertOk_meta_find_ne hkk]
          exact hold
      · rw [h2] at hd
        cases hd

theorem remove_MetaIndexInv {s : EngineState} {id ns : String} {t : Nat}
    (hInv : MetaIndexInv s)
    (hside : ∀ p ∈ s.colls, ∀ d ∈ p.2, docKey d = some (pre_process_id id) → p.1 = ns) :
    MetaIndexInv (remove s id ns t) := by
  obtain ⟨⟨hkeysN, hcollsWF, hmetaN⟩, hinv⟩ := hInv
  rw [remove_eq]
  refine ⟨⟨?_, ?_, ?_⟩, ?_⟩
  · show ((setCollList s.colls ns
      (collDelete (getColl s ns) (pre_process_id id))).map Prod.fst).Nodup
    rw [setCollList_keys]
    exact hkeysN
  · intro p hp
    rcases mem_setCollList hkeysN hp with h1 | h1
    · rw [h1]
      have hWF : collKeysWF (getColl s ns) := getColl_collKeysWF hcollsWF
      exact ⟨fun d hd => hWF.1 d (mem_collDelete.mp hd).1,
        (collDelete_keys_sublist _ _).nodup hWF.2⟩
    · exact hcollsWF p h1.1
  · show ((metaDelete s.meta (pre_process_id id)).map MetaRecord.key).Nodup
    exact (metaDelete_keys_sublist _ _).nodup hmetaN
  · intro p hp d hd
    rcases mem_setCollList hkeysN hp with h1 | h1
    · rw [h1] at hd ⊢
      rcases mem_collDelete.mp hd with ⟨hdc, hdk⟩
      have hWF : collKeysWF (getColl s ns) := getColl_collKeysWF hcollsWF
      rcases Option.isSome_iff_exists.mp (hWF.1 d hdc) with ⟨k', hk'⟩
      have hkk : k' ≠ pre_process_id id := fun he => hdk (by rw [hk', he])
      rw [show keyD d = k' from by unfold keyD; rw [hk']; rfl]
      unfold metaCount
      rw [metaFind_metaDelete_ne hkk]
      have hold := hinv (ns, getColl s ns) (mem_getColl_colls (List.ne_nil_of_mem hdc)) d hdc
      rw [show keyD d = k' from by unfold keyD; rw [hk']; rfl] at hold
      exact hold
    · have hWFp := hcollsWF p h1.1
      rcases Option.isSome_iff_exists.mp (hWFp.1 d hd) with ⟨k', hk'⟩
      have hkk : k' ≠ pre_process_id id := fun he =>
        h1.2 (hside p h1.1 d hd (by rw [hk', he]))
      rw [show keyD d = k' from by unfold keyD; rw [hk']; rfl]
      unfold metaCount
      rw [metaFind_metaDelete_ne hkk]
      have hold := hinv p h1.1 d hd
      rw [show keyD d = k' from by unfold keyD; rw [hk']; rfl] at hold
      exact hold

/-- C1 counterexample: in the reachable two-namespace state `exTwoNs`
the Metadata Index invariant holds, yet `remove("1", "db.b", 3)` —
addressed to a namespace that does not hold the document — deletes the
metadata record of `db.a`'s document (the metadata collection is keyed
by the encoded id alone, ignoring the namespace) while the document
itself survives in `db.a`, so the invariant is not preserved by
`remove` as the claim states. -/
theorem C1_invariant_counterexample :
    MetaIndexInv exTwoNs ∧ ¬ MetaIndexInv exTwoNsRemoved := by decide

/-- C1 (amended): every successful `upsert` establishes the Metadata
Index invariant — afterwards exactly one metadata record carries the
written key and namespace, stamped with the write's timestamp — and
`remove` preserves the invariant provided the encoded key's document,
wherever present, resides in the remove's own namespace (the
counterexample shows the unconditional claim false when the remove is
addressed to a different namespace). -/
theorem C1_invariant_upsert_remove :
    (∀ (s : EngineState) (doc : Doc) (ns : String) (t : Nat),
      MetaIndexInv s → (upsert s doc ns t).err = none →
      MetaIndexInv (upsert s doc ns t).state ∧
      ∀ idv, dictGet doc "_id" = some idv →
        metaFind (upsert s doc ns t).state.meta (pre_process_id (valueStr idv)) ns
          = [⟨pre_process_id (valueStr idv), ns, t⟩]) ∧
    (∀ (s : EngineState) (id ns : String) (t : Nat),
      MetaIndexInv s →
      (∀ p ∈ s.colls, ∀ d ∈ p.2, docKey d = some (pre_process_id id) → p.1 = ns) →
      MetaIndexInv (remove s id ns t)) := by
  constructor
  · intro s doc ns t hInv hsucc
    cases hidcase : dictGet doc "_id" with
    | none =>
      exfalso
      simp only [upsert, hidcase] at hsucc
      cases hsucc
    | some idv =>
      have hns := upsert_success_hns hidcase hInv.1.2.2 hsucc
      have heq := upsert_eq_upsertOk (t := t) hidcase hns
      constructor
      · rw [heq]
        exact upsertOk_MetaIndexInv hidcase hInv hns
      · intro idv2 hidv2
        have hvv : idv2 = idv := (Option.some_injective _ hidv2).symm
        subst hvv
        rw [heq]
        exact upsertOk_meta_find_self hInv.1.2.2
  · intro s id ns t hInv hside
    exact remove_MetaIndexInv hInv hside

/-- Witness for the amended C1: upserting `{"_id": "1"}` into the empty
store satisfies the invariant's hypotheses and re-establishes it. -/
theorem C1_invariant_upsert_remove_witness :
    MetaIndexInv (⟨[], []⟩ : EngineState) ∧
    MetaIndexInv (upsert ⟨[], []⟩ [("_id", Value.str "1")] "d.c" 1).state :=
  ⟨by decide,
    (C1_invariant_upsert_remove.1 ⟨[], []⟩ [("_id", Value.str "1")] "d.c" 1
      (by decide) (by rfl)).1⟩

end Arango3
